import Mathlib

/-!
Verification of the ralph orchestrator against its specification.

This file gives a shallow embedding, in Lean 4, of the parts of the ralph
source (src/state/mod.rs, src/orchestrator/mod.rs, src/watcher/mod.rs,
src/parser/mod.rs) that the verified claims are about, together with proofs
or refutations of those claims.  Rust `HashMap`/`HashSet` values keyed by
strings are modelled as association lists, machine integers as `Nat`/`Int`,
fallible operations as `Except`/`Option`, and the filesystem as an
association list from paths to file contents.
-/

namespace Ralph

/- ── String helpers (models of Rust `str` methods) ─────────────────────────── -/

/-- Model of Rust `str::starts_with` on character lists: the first argument is
the needle. -/
def startsWithChars : List Char → List Char → Bool
  | [], _ => true
  | _ :: _, [] => false
  | n :: ns, h :: hs => decide (n = h) && startsWithChars ns hs

/-- Model of Rust `str::contains` (substring search) on character lists. -/
def containsChars (needle : List Char) : List Char → Bool
  | [] => startsWithChars needle []
  | h :: hs => startsWithChars needle (h :: hs) || containsChars needle hs

/-- Model of Rust `str::contains(needle)` for strings. -/
def strContains (hay needle : String) : Bool :=
  containsChars needle.toList hay.toList

/-- Whitespace recognized by the trim model (ASCII whitespace; Rust's
`str::trim` also strips rarer Unicode whitespace, which never occurs in the
inputs at issue). -/
def isWsChar (c : Char) : Bool :=
  decide (c = ' ') || decide (c = '\t') || decide (c = '\n') || decide (c = '\r')

/-- Model of Rust `str::trim` on character lists. -/
def trimChars (cs : List Char) : List Char :=
  ((cs.dropWhile isWsChar).reverse.dropWhile isWsChar).reverse

/-- Model of Rust `str::trim` for strings. -/
def strTrim (s : String) : String := ⟨trimChars s.toList⟩

/- ── Task model (src/state/mod.rs, `TaskStatus`, `Task`, `TaskList`) ─────────── -/

/-- Mirror of `enum TaskStatus` in src/state/mod.rs. -/
inductive TaskStatus where
  | pending
  | inProgress
  | complete
  | failed
deriving DecidableEq

/-- Mirror of `struct Task` in src/state/mod.rs.  `chrono::DateTime<Utc>` is
kept as its RFC3339 string form, and `u32` priority as `Nat` (priorities are
only compared, never overflowed). -/
structure Task where
  id : String
  title : String
  description : String
  priority : Nat
  status : TaskStatus
  depends_on : List String
  completed_at : Option String
  notes : Option String
deriving DecidableEq

/-- Mirror of `struct TaskList` in src/state/mod.rs. -/
structure TaskList where
  version : Nat
  prd_path : String
  created_at : String
  updated_at : String
  tasks : List Task
deriving DecidableEq

/-- Mirror of `struct LockFile` in src/state/mod.rs (`pid: u32` as `Nat`,
`DateTime<Utc>` as its string form). -/
structure LockFile where
  pid : Nat
  current_task : String
  progress : String
  started_at : String
  prd_path : String
  agent : String
deriving DecidableEq

/-- Mirror of `enum LoopState` in src/state/mod.rs. -/
inductive LoopState where
  | starting
  | parsing
  | running
  | complete
  | failed (reason : String)
  | stopped
deriving DecidableEq

/- ── Fallback orders (orchestrator/mod.rs line 280, parser/mod.rs line 120) ── -/

namespace Orchestrator

/-- Mirror of `const FALLBACK_ORDER: &[&str]` in src/orchestrator/mod.rs. -/
def FALLBACK_ORDER : List String := ["codex", "gemini", "claude", "opencode"]

end Orchestrator

namespace Parser

/-- Mirror of `const FALLBACK_ORDER: &[&str]` in src/parser/mod.rs. -/
def FALLBACK_ORDER : List String := ["claude", "codex", "gemini", "opencode"]

end Parser

/- ── Reset of interrupted tasks on load (orchestrator/mod.rs lines 213-237) ── -/

/-- Mirror of the reset loop in `run`: every `in_progress` task becomes
`pending`, and the number of resets is counted.  Returns the fixed task
sequence together with `reset_count`. -/
def resetTasksToPending : List Task → List Task × Nat
  | [] => ([], 0)
  | t :: ts =>
    let rest := resetTasksToPending ts
    if t.status = TaskStatus.inProgress then
      ({ t with status := TaskStatus.pending } :: rest.1, rest.2 + 1)
    else
      (t :: rest.1, rest.2)

/-- Mirror of the `Some(existing)` branch of the load-or-parse step in `run`:
the list is fixed up and re-persisted exactly when `reset_count > 0`.  The
boolean records whether `state.save_tasks(&fixed)` was called. -/
def setupLoadedTaskList (existing : TaskList) : TaskList × Bool :=
  let fixed := resetTasksToPending existing.tasks
  ({ existing with tasks := fixed.1 }, decide (0 < fixed.2))

/- ── Scheduler (orchestrator/mod.rs `pick_next_task`, lines 922-940) ──────── -/

/-- Ids of the tasks whose status is `complete` (the `complete_ids` set in
`pick_next_task`). -/
def completeIdsOf (tl : TaskList) : List String :=
  (tl.tasks.filter (fun u => decide (u.status = TaskStatus.complete))).map Task.id

/-- The pending tasks whose every dependency is in `complete_ids`, in list
order (the filtered iterator in `pick_next_task`). -/
def eligiblePendingTasks (tl : TaskList) : List Task :=
  (tl.tasks.filter (fun t => decide (t.status = TaskStatus.pending))).filter
    (fun t => t.depends_on.all (fun dep => decide (dep ∈ completeIdsOf tl)))

/-- Accumulator version of Rust `Iterator::min_by_key(|t| t.priority)`: among
equal minima the first element is kept, so the accumulator is replaced only on
a strictly smaller key. -/
def minByPriorityAcc : Option Task → List Task → Option Task
  | acc, [] => acc
  | none, t :: ts => minByPriorityAcc (some t) ts
  | some u, t :: ts =>
    minByPriorityAcc (some (if t.priority < u.priority then t else u)) ts

/-- Mirror of `pick_next_task` in src/orchestrator/mod.rs: the first
lowest-priority pending task all of whose dependencies are complete. -/
def pickNextTask (tl : TaskList) : Option Task :=
  minByPriorityAcc none (eligiblePendingTasks tl)

/-- Mirror of `all_tasks_complete` in src/orchestrator/mod.rs. -/
def allTasksComplete (tl : TaskList) : Bool :=
  tl.tasks.all (fun t => decide (t.status = TaskStatus.complete))

/-- Spec-level eligibility: pending, and every dependency id names a complete
task. -/
def EligibleTask (tl : TaskList) (t : Task) : Prop :=
  t.status = TaskStatus.pending ∧
    ∀ dep ∈ t.depends_on, ∃ u ∈ tl.tasks, u.status = TaskStatus.complete ∧ u.id = dep

/- ── One-iteration outcome (orchestrator/mod.rs lines 894-916 and 468-482) ── -/

/-- The completion marker recognized in the child's standard output. -/
def promiseMarker : String := "<promise>COMPLETE</promise>"

/-- Rust `{:?}` (Debug) rendering of `Option<i32>`, as used for the exit code
in the `run_iteration` failure message. -/
def fmtDebugOptionInt : Option Int → String
  | none => "None"
  | some n => "Some(" ++ toString n ++ ")"

/-- Mirror of the tail of `run_iteration` (after both pipes are drained and
the watcher is shut down): `exitStatus` is `proc.child.wait()`'s status when
one was obtained (`none` models the `wait().ok()` fallback paths yielding no
status), with `some code` carrying `ExitStatus::code()` (`none` inside means
killed by a signal).  `success` is `exit_status.map(|s| s.success())
.unwrap_or(false)`; a non-success exit with empty/whitespace stdout bails with
the Debug-formatted exit code and the whole trimmed stderr. -/
def runIterationOutcome (exitStatus : Option (Option Int)) (stdoutStr stderrStr : String) :
    Except String String :=
  let exitCode : Option Int := exitStatus.bind id
  let success : Bool := match exitStatus with
    | some st => decide (st = some 0)
    | none => false
  if !success && (strTrim stdoutStr).isEmpty then
    Except.error ("Agent exited with code " ++ fmtDebugOptionInt exitCode ++ ": " ++
      strTrim stderrStr)
  else
    Except.ok stdoutStr

/-- How the orchestrator classifies one finished iteration. -/
inductive IterationJudgment where
  | done
  | notDone
  | errored
deriving DecidableEq

/-- Mirror of the outcome interpretation in `run` (lines 468-482): when
`run_iteration` returns the captured stdout, the task is done iff the output
contains the completion marker or the re-serialized stored task sequence
differs from the pre-run snapshot (`snapshotAfterLoad` is
`load_tasks().ok().flatten().map(serialize)`, defaulting to the pre-snapshot
when the re-load fails); when `run_iteration` fails, the `Err` arm marks the
task failed. -/
def iterationJudgment (exitStatus : Option (Option Int)) (stdoutStr stderrStr : String)
    (snapshotBefore : String) (snapshotAfterLoad : Option String) : IterationJudgment :=
  match runIterationOutcome exitStatus stdoutStr stderrStr with
  | Except.error _ => IterationJudgment.errored
  | Except.ok out =>
    let promisedComplete := strContains out promiseMarker
    let snapshotAfter := snapshotAfterLoad.getD snapshotBefore
    if promisedComplete || decide (¬ snapshotBefore = snapshotAfter) then
      IterationJudgment.done
    else
      IterationJudgment.notDone

/- ── Watcher stall logic (watcher/mod.rs `run_watcher`, lines 141-189) ─────── -/

/-- Elapsed silence observed by one watcher tick:
`now.saturating_sub(last_output_ts)` (Nat subtraction saturates like
`saturating_sub`). -/
def tickSilence (tick : Nat × Nat) : Nat := tick.2 - tick.1

/-- Mirror of the stall check in `run_watcher`: each tick supplies
`(last_output_ts, now)`; the boolean state is `stall_fired`.  Returns, per
tick, whether a `StallDetected` event was sent. -/
def watcherStallEmits (stallTimeoutSecs : Nat) : Bool → List (Nat × Nat) → List Bool
  | _, [] => []
  | stallFired, tick :: ticks =>
    let silentSecs := tickSilence tick
    if stallTimeoutSecs ≤ silentSecs then
      (!stallFired) :: watcherStallEmits stallTimeoutSecs true ticks
    else
      false :: watcherStallEmits stallTimeoutSecs false ticks

/-- Emission trace of a fresh watcher (`stall_fired` starts `false`). -/
def stallEmissions (stallTimeoutSecs : Nat) (ticks : List (Nat × Nat)) : List Bool :=
  watcherStallEmits stallTimeoutSecs false ticks

/-- Silence observed at tick `i` of a tick sequence. -/
def silenceAt (ticks : List (Nat × Nat)) (i : Nat) : Nat :=
  tickSilence (ticks.getD i (0, 0))

/- ── Main-loop gates (orchestrator/mod.rs `run`, lines 286-387) ────────────── -/

/-- Hook events fired by the main loop (payloads elided). -/
inductive HookEventKind where
  | taskComplete
  | taskFailed
  | allComplete
  | circuitBreaker
  | maxIterations
deriving DecidableEq

/-- What one pass of the main loop decides to do before any agent is spawned,
with the journal entry, hook event and shared-status transition of the
terminating branches. -/
inductive LoopDecision where
  | stoppedCancelled (finalState : LoopState)
  | stoppedMaxIterations (event : HookEventKind) (finalState : LoopState)
  | stoppedCircuitBreaker (journalEntry : String) (event : HookEventKind) (finalState : LoopState)
  | finishedAllComplete (journalEntry : String) (event : HookEventKind) (finalState : LoopState)
  | stoppedNoActionable (journalEntry : String) (finalState : LoopState)
  | runIterationFor (task : Task)
deriving DecidableEq

/-- Mirror of the gate sequence at the top of the main loop in `run`:
cancellation flag, iteration cap (`iteration > max_iterations`), circuit
breaker (`consecutive_failures >= max_failures`), then task selection; with
no actionable task the loop finishes as complete when every task is complete
and as failed otherwise.  Only `runIterationFor` goes on to spawn an agent. -/
def loopIterationDecision (cancelRequested : Bool)
    (iteration maxIterations consecutiveFailures maxFailures : Nat)
    (tl : TaskList) : LoopDecision :=
  if cancelRequested then
    LoopDecision.stoppedCancelled LoopState.stopped
  else if maxIterations < iteration then
    LoopDecision.stoppedMaxIterations HookEventKind.maxIterations LoopState.stopped
  else if maxFailures ≤ consecutiveFailures then
    LoopDecision.stoppedCircuitBreaker
      ("**STOPPED** — circuit breaker after " ++ toString maxFailures ++
        " consecutive failures (iteration " ++ toString iteration ++ ").")
      HookEventKind.circuitBreaker
      (LoopState.failed (toString maxFailures ++ " consecutive failures"))
  else
    match pickNextTask tl with
    | some t => LoopDecision.runIterationFor t
    | none =>
      if !(allTasksComplete tl) then
        LoopDecision.stoppedNoActionable
          "**STOPPED** — No actionable pending tasks remain, but not all tasks are complete."
          (LoopState.failed
            "No actionable pending tasks remain, but not all tasks are complete.")
      else
        LoopDecision.finishedAllComplete
          "**COMPLETE** — all tasks finished successfully."
          HookEventKind.allComplete
          LoopState.complete

/- ── Supporting lemmas ─────────────────────────────────────────────────────── -/

theorem resetTasksToPending_spec (l : List Task) :
    (resetTasksToPending l).1 =
      l.map (fun t =>
        if t.status = TaskStatus.inProgress then { t with status := TaskStatus.pending } else t) ∧
    ((resetTasksToPending l).2 = 0 ↔ ∀ t ∈ l, ¬ t.status = TaskStatus.inProgress) := by
  induction l with
  | nil => simp [resetTasksToPending]
  | cons t ts ih =>
    by_cases ht : t.status = TaskStatus.inProgress <;>
      simp [resetTasksToPending, ht, ih.1, ih.2]

theorem minByPriorityAcc_some_isSome (l : List Task) :
    ∀ u : Task, (minByPriorityAcc (some u) l).isSome = true := by
  induction l with
  | nil => intro u; rfl
  | cons t ts ih => intro u; simpa [minByPriorityAcc] using ih _

theorem minByPriorityAcc_some_mem (l : List Task) :
    ∀ u r : Task, minByPriorityAcc (some u) l = some r → r = u ∨ r ∈ l := by
  induction l with
  | nil => intro u r h; exact Or.inl (Option.some.inj h).symm
  | cons t ts ih =>
    intro u r h
    rcases ih _ _ h with h' | h'
    · by_cases hp : t.priority < u.priority
      · simp [hp] at h'
        exact Or.inr (h' ▸ List.mem_cons_self t ts)
      · simp [hp] at h'
        exact Or.inl h'
    · exact Or.inr (List.mem_cons_of_mem _ h')

theorem minByPriorityAcc_some_le (l : List Task) :
    ∀ u r : Task, minByPriorityAcc (some u) l = some r →
      r.priority ≤ u.priority ∧ ∀ x ∈ l, r.priority ≤ x.priority := by
  induction l with
  | nil =>
    intro u r h
    obtain rfl : u = r := Option.some.inj h
    exact ⟨Nat.le_refl _, by simp⟩
  | cons t ts ih =>
    intro u r h
    obtain ⟨h1, h2⟩ := ih _ _ h
    by_cases hp : t.priority < u.priority
    · simp [hp] at h1
      refine ⟨Nat.le_trans h1 (Nat.le_of_lt hp), ?_⟩
      intro x hx
      rcases List.mem_cons.mp hx with rfl | hx
      · exact h1
      · exact h2 x hx
    · simp [hp] at h1
      refine ⟨h1, ?_⟩
      intro x hx
      rcases List.mem_cons.mp hx with rfl | hx
      · exact Nat.le_trans h1 (Nat.le_of_not_lt hp)
      · exact h2 x hx

theorem mem_completeIdsOf (tl : TaskList) (dep : String) :
    dep ∈ completeIdsOf tl ↔ ∃ u ∈ tl.tasks, u.status = TaskStatus.complete ∧ u.id = dep := by
  simp [completeIdsOf, List.mem_map, List.mem_filter, and_assoc]

theorem mem_eligiblePendingTasks (tl : TaskList) (t : Task) :
    t ∈ eligiblePendingTasks tl ↔ t ∈ tl.tasks ∧ EligibleTask tl t := by
  simp only [eligiblePendingTasks, EligibleTask, List.mem_filter, decide_eq_true_eq,
    List.all_eq_true]
  constructor
  · rintro ⟨⟨hmem, hpend⟩, hdeps⟩
    refine ⟨hmem, hpend, ?_⟩
    intro dep hdep
    exact (mem_completeIdsOf tl dep).mp (hdeps dep hdep)
  · rintro ⟨hmem, hpend, hdeps⟩
    refine ⟨⟨hmem, hpend⟩, ?_⟩
    intro dep hdep
    exact (mem_completeIdsOf tl dep).mpr (hdeps dep hdep)

/- ── C2 ────────────────────────────────────────────────────────────────────── -/

/-- C2: `pick_next_task` returns a task only if it is pending with every
dependency naming a complete task, and among all such eligible tasks the
returned one has the minimum priority value; it returns none exactly when no
pending task is eligible. -/
theorem pick_next_task_spec (tl : TaskList) :
    (∀ t, pickNextTask tl = some t →
      t ∈ tl.tasks ∧ EligibleTask tl t ∧
        ∀ u ∈ tl.tasks, EligibleTask tl u → t.priority ≤ u.priority) ∧
    (pickNextTask tl = none ↔ ∀ u ∈ tl.tasks, ¬ EligibleTask tl u) := by
  rcases hE : eligiblePendingTasks tl with _ | ⟨t₀, ts⟩
  · constructor
    · intro t ht
      simp [pickNextTask, hE, minByPriorityAcc] at ht
    · simp only [pickNextTask, hE, minByPriorityAcc, true_iff]
      intro u hu hElig
      have : u ∈ eligiblePendingTasks tl := (mem_eligiblePendingTasks tl u).mpr ⟨hu, hElig⟩
      rw [hE] at this
      exact absurd this (List.not_mem_nil u)
  · constructor
    · intro t ht
      have ht' : minByPriorityAcc (some t₀) ts = some t := by
        simpa [pickNextTask, hE, minByPriorityAcc] using ht
      have hmem : t ∈ eligiblePendingTasks tl := by
        rw [hE]
        rcases minByPriorityAcc_some_mem ts t₀ t ht' with rfl | h
        · exact List.mem_cons_self _ _
        · exact List.mem_cons_of_mem _ h
      obtain ⟨htask, hElig⟩ := (mem_eligiblePendingTasks tl t).mp hmem
      refine ⟨htask, hElig, ?_⟩
      intro u hu hEu
      have humem : u ∈ eligiblePendingTasks tl := (mem_eligiblePendingTasks tl u).mpr ⟨hu, hEu⟩
      rw [hE] at humem
      obtain ⟨hle₀, hle⟩ := minByPriorityAcc_some_le ts t₀ t ht'
      rcases List.mem_cons.mp humem with rfl | humem
      · exact hle₀
      · exact hle u humem
    · constructor
      · intro hnone
        have : (minByPriorityAcc (some t₀) ts).isSome = true := minByPriorityAcc_some_isSome ts t₀
        rw [show minByPriorityAcc (some t₀) ts = pickNextTask tl by
              simp [pickNextTask, hE, minByPriorityAcc],
            hnone] at this
        cases this
      · intro hAll
        exfalso
        have : t₀ ∈ eligiblePendingTasks tl := by rw [hE]; exact List.mem_cons_self _ _
        obtain ⟨htask, hElig⟩ := (mem_eligiblePendingTasks tl t₀).mp this
        exact hAll t₀ htask hElig

/-- Witness for C2 at a concrete task list: the scheduler picks the priority-1
task `b` whose dependency list is empty. -/
theorem pick_next_task_spec_witness :
    let tb : Task := ⟨"B", "dep", "d", 2, TaskStatus.pending, [], none, none⟩
    let ta : Task := ⟨"A", "blocked", "d", 1, TaskStatus.pending, ["B"], none, none⟩
    let tl : TaskList := ⟨1, "prd.md", "c", "u", [ta, tb]⟩
    tb ∈ tl.tasks ∧ EligibleTask tl tb ∧
      ∀ u ∈ tl.tasks, EligibleTask tl u → tb.priority ≤ u.priority := by
  intro tb ta tl
  exact (pick_next_task_spec tl).1 tb rfl

/- ── C5 ────────────────────────────────────────────────────────────────────── -/

/-- C5: on load, every `in_progress` task is reset to `pending` (all other
tasks are kept unchanged, position by position), the list is re-persisted
exactly when at least one task was reset, and afterwards no task has status
`in_progress`. -/
theorem in_progress_reset_on_load (existing : TaskList) :
    (∀ t ∈ (setupLoadedTaskList existing).1.tasks, ¬ t.status = TaskStatus.inProgress) ∧
    (setupLoadedTaskList existing).1.tasks =
      existing.tasks.map (fun t =>
        if t.status = TaskStatus.inProgress then { t with status := TaskStatus.pending }
        else t) ∧
    ((setupLoadedTaskList existing).2 = true ↔
      ∃ t ∈ existing.tasks, t.status = TaskStatus.inProgress) := by
  obtain ⟨hmap, hzero⟩ := resetTasksToPending_spec existing.tasks
  refine ⟨?_, ?_, ?_⟩
  · intro t ht
    have ht' : t ∈ existing.tasks.map (fun t =>
        if t.status = TaskStatus.inProgress then { t with status := TaskStatus.pending }
        else t) := by
      simpa [setupLoadedTaskList, hmap] using ht
    obtain ⟨t₀, _, rfl⟩ := List.mem_map.mp ht'
    by_cases h₀ : t₀.status = TaskStatus.inProgress <;> simp [h₀]
  · simpa [setupLoadedTaskList] using hmap
  · simp only [setupLoadedTaskList, decide_eq_true_eq]
    rw [Nat.pos_iff_ne_zero, Ne, hzero]
    push_neg
    simp

/-- Witness for C5 at a concrete list with one interrupted task. -/
theorem in_progress_reset_on_load_witness :
    let t1 : Task := ⟨"T1", "a", "d", 1, TaskStatus.inProgress, [], none, none⟩
    let tl : TaskList := ⟨1, "prd.md", "c", "u", [t1]⟩
    (setupLoadedTaskList tl).2 = true := by
  intro t1 tl
  exact (in_progress_reset_on_load tl).2.2.mpr ⟨t1, by decide, by decide⟩

/- ── C6 ────────────────────────────────────────────────────────────────────── -/

/-- C6 counterexample: the Task Parser's fallback list is not the same ordered
list as the orchestrator's. -/
theorem fallback_orders_differ : ¬ (Parser.FALLBACK_ORDER = Orchestrator.FALLBACK_ORDER) := by
  decide

/-- C6 (amended): the orchestrator's fallback order is
`[codex, gemini, claude, opencode]` while the Task Parser's is
`[claude, codex, gemini, opencode]`; the two lists contain the same four
backend names but in different orders. -/
theorem fallback_orders_amended :
    Orchestrator.FALLBACK_ORDER = ["codex", "gemini", "claude", "opencode"] ∧
    Parser.FALLBACK_ORDER = ["claude", "codex", "gemini", "opencode"] ∧
    ∀ name, name ∈ Parser.FALLBACK_ORDER ↔ name ∈ Orchestrator.FALLBACK_ORDER := by
  refine ⟨rfl, rfl, fun name => ?_⟩
  simp only [Parser.FALLBACK_ORDER, Orchestrator.FALLBACK_ORDER, List.mem_cons,
    List.not_mem_nil, or_false]
  tauto

/- ── C10 ───────────────────────────────────────────────────────────────────── -/

/-- C10: with an empty task list (and the cancellation, iteration-cap and
circuit-breaker gates not tripped) the first loop pass finds no actionable
task, `all_tasks_complete` holds vacuously, and the loop finishes with the
final COMPLETE journal entry, the `all_complete` event and shared state
`complete`, never reaching the agent-spawning branch. -/
theorem empty_task_list_completes (maxIterations maxFailures : Nat) (tl : TaskList)
    (hEmpty : tl.tasks = []) (hIter : 1 ≤ maxIterations) (hFail : 1 ≤ maxFailures) :
    allTasksComplete tl = true ∧ pickNextTask tl = none ∧
    loopIterationDecision false 1 maxIterations 0 maxFailures tl =
      LoopDecision.finishedAllComplete "**COMPLETE** — all tasks finished successfully."
        HookEventKind.allComplete LoopState.complete ∧
    ∀ t, ¬ loopIterationDecision false 1 maxIterations 0 maxFailures tl =
      LoopDecision.runIterationFor t := by
  have hAll : allTasksComplete tl = true := by simp [allTasksComplete, hEmpty]
  have hPick : pickNextTask tl = none := by
    simp [pickNextTask, eligiblePendingTasks, hEmpty, minByPriorityAcc]
  have h1 : ¬ (maxIterations < 1) := by omega
  have h2 : ¬ (maxFailures ≤ 0) := by omega
  have hDec : loopIterationDecision false 1 maxIterations 0 maxFailures tl =
      LoopDecision.finishedAllComplete "**COMPLETE** — all tasks finished successfully."
        HookEventKind.allComplete LoopState.complete := by
    simp [loopIterationDecision, h1, h2, hPick, hAll]
  refine ⟨hAll, hPick, hDec, ?_⟩
  intro t h
  rw [hDec] at h
  cases h

/-- Witness for C10 at a concrete empty task list. -/
theorem empty_task_list_completes_witness :
    let tl : TaskList := ⟨1, "prd.md", "c", "u", []⟩
    loopIterationDecision false 1 10 0 3 tl =
      LoopDecision.finishedAllComplete "**COMPLETE** — all tasks finished successfully."
        HookEventKind.allComplete LoopState.complete := by
  intro tl
  exact (empty_task_list_completes 10 3 tl rfl (by decide) (by decide)).2.2.1

/- ── C1 ────────────────────────────────────────────────────────────────────── -/

/-- C1 counterexample: with a normally terminated child (exit code 1),
whitespace-only captured stdout and a stored task sequence that differs from
the pre-run snapshot, the iteration errors and the task is not judged done,
although the claimed right-hand side (output marker or changed serialization)
holds. -/
theorem iteration_judgment_counterexample :
    iterationJudgment (some (some 1)) "" "boom" "[]" (some "[x]") =
      IterationJudgment.errored ∧
    ¬ ("[]" : String) = "[x]" ∧
    ¬ iterationJudgment (some (some 1)) "" "boom" "[]" (some "[x]") =
      IterationJudgment.done := by
  refine ⟨by decide, by decide, by decide⟩

/-- C1 (amended): whenever `run_iteration` returns the captured standard
output (so not in the non-success-and-empty-stdout failure case), the task is
judged done iff the output contains the completion marker or the stored task
sequence re-loaded after the run serializes differently from the pre-run
snapshot (a failed re-load counting as unchanged); when `run_iteration` fails
the iteration is an error and the task is marked failed, not done. -/
theorem iteration_judgment_amended (exitStatus : Option (Option Int))
    (stdoutStr stderrStr snapshotBefore : String) (snapshotAfterLoad : Option String) :
    (∀ out, runIterationOutcome exitStatus stdoutStr stderrStr = Except.ok out →
      (iterationJudgment exitStatus stdoutStr stderrStr snapshotBefore snapshotAfterLoad =
          IterationJudgment.done ↔
        (strContains out promiseMarker = true ∨
          ¬ snapshotBefore = snapshotAfterLoad.getD snapshotBefore))) ∧
    (∀ e, runIterationOutcome exitStatus stdoutStr stderrStr = Except.error e →
      iterationJudgment exitStatus stdoutStr stderrStr snapshotBefore snapshotAfterLoad =
        IterationJudgment.errored) := by
  constructor
  · intro out h
    rw [iterationJudgment, h]
    by_cases hc : (strContains out promiseMarker ||
        decide (¬ snapshotBefore = snapshotAfterLoad.getD snapshotBefore)) = true
    · simp only [hc, if_true]
      simp only [Bool.or_eq_true, decide_eq_true_eq] at hc
      simpa using hc
    · simp only [Bool.not_eq_true] at hc
      simp only [hc, Bool.false_eq_true, if_false]
      simp only [Bool.or_eq_false_iff, decide_eq_false_iff_not, not_not] at hc
      constructor
      · intro hne; cases hne
      · rintro (h1 | h2)
        · rw [hc.1] at h1; cases h1
        · exact absurd hc.2 h2
  · intro e h
    rw [iterationJudgment, h]

/-- Witness for C1 (amended) at a successful iteration whose output carries
the completion marker. -/
theorem iteration_judgment_amended_witness :
    iterationJudgment (some (some 0)) "done <promise>COMPLETE</promise>" "" "[]" (some "[]") =
      IterationJudgment.done :=
  ((iteration_judgment_amended (some (some 0)) "done <promise>COMPLETE</promise>" "" "[]"
      (some "[]")).1 "done <promise>COMPLETE</promise>" rfl).mpr (Or.inl (by decide))

/- ── C8 ────────────────────────────────────────────────────────────────────── -/

/-- C8 counterexample: for exit code 1, empty stdout and two-line stderr, the
failure message Debug-formats the exit code (`Some(1)`) and carries the whole
trimmed standard error, not `"Agent exited with code 1: <first stderr
line>"`. -/
theorem run_iteration_message_counterexample :
    runIterationOutcome (some (some 1)) "" "first\nsecond" =
      Except.error "Agent exited with code Some(1): first\nsecond" ∧
    ¬ ("Agent exited with code Some(1): first\nsecond" =
        "Agent exited with code 1: first") := by
  exact ⟨rfl, by decide⟩

/-- C8 (amended): on normal termination, a non-success exit status together
with empty-or-whitespace captured stdout fails the iteration with
`"Agent exited with code C: E"` where `C` is the Debug rendering of the
optional exit code (for instance `Some(1)`) and `E` is the entire captured
standard error, trimmed; in every other normal-termination case the captured
standard output is returned. -/
theorem run_iteration_outcome_amended (code : Option Int) (stdoutStr stderrStr : String) :
    (¬ code = some 0 → (strTrim stdoutStr).isEmpty = true →
      runIterationOutcome (some code) stdoutStr stderrStr =
        Except.error ("Agent exited with code " ++ fmtDebugOptionInt code ++ ": " ++
          strTrim stderrStr)) ∧
    ((code = some 0 ∨ (strTrim stdoutStr).isEmpty = false) →
      runIterationOutcome (some code) stdoutStr stderrStr = Except.ok stdoutStr) := by
  constructor
  · intro hcode hempty
    simp [runIterationOutcome, hcode, hempty]
  · rintro (rfl | hout)
    · simp [runIterationOutcome]
    · simp [runIterationOutcome, hout]

/-- Witness for C8 (amended) at a concrete failing exit. -/
theorem run_iteration_outcome_amended_witness :
    runIterationOutcome (some (some 1)) " \n " "  boom\n" =
      Except.error ("Agent exited with code " ++ fmtDebugOptionInt (some 1) ++ ": " ++
        strTrim "  boom\n") :=
  (run_iteration_outcome_amended (some 1) " \n " "  boom\n").1 (by decide) (by decide)

/- ── C9 ────────────────────────────────────────────────────────────────────── -/

theorem watcherStallEmits_length (t : Nat) (ticks : List (Nat × Nat)) :
    ∀ f : Bool, (watcherStallEmits t f ticks).length = ticks.length := by
  induction ticks with
  | nil => intro f; rfl
  | cons x xs ih =>
    intro f
    by_cases hx : t ≤ tickSilence x <;> simp [watcherStallEmits, hx, ih]

theorem stallEmits_getD_zero (t : Nat) (ticks : List (Nat × Nat)) (f : Bool)
    (h : 0 < ticks.length) :
    (watcherStallEmits t f ticks).getD 0 false =
      (decide (t ≤ tickSilence (ticks.getD 0 (0, 0))) && !f) := by
  rcases ticks with _ | ⟨x, xs⟩
  · simp at h
  · by_cases hx : t ≤ tickSilence x <;> simp [watcherStallEmits, hx]

theorem stallEmits_getD_succ (t : Nat) (ticks : List (Nat × Nat)) :
    ∀ (f : Bool) (i : Nat), i + 1 < ticks.length →
      (watcherStallEmits t f ticks).getD (i + 1) false =
        (decide (t ≤ tickSilence (ticks.getD (i + 1) (0, 0))) &&
          !(decide (t ≤ tickSilence (ticks.getD i (0, 0))))) := by
  induction ticks with
  | nil => intro f i h; simp at h
  | cons x xs ih =>
    intro f i h
    have hxs : i < xs.length := by simpa using Nat.lt_of_succ_lt_succ h
    rcases i with _ | j
    · have hne : 0 < xs.length := hxs
      have h0 := stallEmits_getD_zero t xs true hne
      have h0' := stallEmits_getD_zero t xs false hne
      simp only [List.getD, List.get?_eq_getElem?] at h0 h0'
      by_cases hx : t ≤ tickSilence x
      · simp [watcherStallEmits, hx, h0]
      · simp [watcherStallEmits, hx, h0']
    · have hj : j + 1 < xs.length := hxs
      have hi1 := ih true j hj
      have hi2 := ih false j hj
      simp only [List.getD, List.get?_eq_getElem?] at hi1 hi2
      by_cases hx : t ≤ tickSilence x
      · simp [watcherStallEmits, hx, hi1]
      · simp [watcherStallEmits, hx, hi2]

/-- C9: a stall event is emitted at most once per stall window — an emission
happens only at a stalled tick; after an emission no further stall event is
emitted while the silence continues; between any two emissions there is a tick
that observed the silence back below the stall timeout; and after such a
resume tick, a new stall emits again. -/
theorem watcher_stall_once_per_window (t : Nat) (ticks : List (Nat × Nat)) :
    (∀ i, i < ticks.length → (stallEmissions t ticks).getD i false = true →
      t ≤ silenceAt ticks i) ∧
    (∀ i j, i < j → j < ticks.length → (stallEmissions t ticks).getD i false = true →
      (∀ k, i < k → k ≤ j → t ≤ silenceAt ticks k) →
      (stallEmissions t ticks).getD j false = false) ∧
    (∀ i j, i < j → j < ticks.length → (stallEmissions t ticks).getD i false = true →
      (stallEmissions t ticks).getD j false = true →
      ∃ k, i < k ∧ k < j ∧ silenceAt ticks k < t) ∧
    (∀ i, i + 1 < ticks.length → silenceAt ticks i < t → t ≤ silenceAt ticks (i + 1) →
      (stallEmissions t ticks).getD (i + 1) false = true) := by
  have hEmit : ∀ i, i < ticks.length →
      ((stallEmissions t ticks).getD i false = true ↔
        (t ≤ silenceAt ticks i ∧ (i = 0 ∨ ¬ t ≤ silenceAt ticks (i - 1)))) := by
    intro i hi
    rcases i with _ | j
    · have h0 : 0 < ticks.length := hi
      rw [stallEmissions, stallEmits_getD_zero t ticks false h0]
      simp [silenceAt]
    · rw [stallEmissions, stallEmits_getD_succ t ticks false j hi]
      simp [silenceAt]
  refine ⟨?_, ?_, ?_, ?_⟩
  · intro i hi h
    exact ((hEmit i hi).mp h).1
  · intro i j hij hj hi hsilent
    have hilen : i < ticks.length := Nat.lt_trans hij hj
    rcases j with _ | j'
    · omega
    · rw [Bool.eq_false_iff]
      intro hemT
      obtain ⟨hstall, hprev⟩ := (hEmit (j' + 1) hj).mp hemT
      rcases hprev with h0 | hprev
      · omega
      · simp only [Nat.add_sub_cancel] at hprev
        apply hprev
        rcases Nat.lt_or_ge i j' with h' | h'
        · exact hsilent j' (by omega) (by omega)
        · have : i = j' := by omega
          subst this
          exact ((hEmit i hilen).mp hi).1
  · intro i j hij hj hi hjem
    have hilen : i < ticks.length := Nat.lt_trans hij hj
    rcases j with _ | j'
    · omega
    · obtain ⟨_, hprev⟩ := (hEmit (j' + 1) hj).mp hjem
      rcases hprev with h0 | hprev
      · omega
      · simp only [Nat.add_sub_cancel] at hprev
        have hne : ¬ j' = i := by
          intro h
          subst h
          exact hprev ((hEmit j' hilen).mp hi).1
        exact ⟨j', by omega, by omega, Nat.lt_of_not_le hprev⟩
  · intro i h hres hstall
    rw [hEmit (i + 1) h]
    refine ⟨hstall, Or.inr ?_⟩
    simpa using Nat.not_le_of_lt hres

/-- Witness for C9: with stall timeout 3 and silences 5, 1, 4 the watcher
re-emits at the third tick after the resume observed at the second. -/
theorem watcher_stall_once_per_window_witness :
    (stallEmissions 3 [(0, 5), (5, 6), (6, 10)]).getD 2 false = true :=
  (watcher_stall_once_per_window 3 [(0, 5), (5, 6), (6, 10)]).2.2.2 1 (by decide)
    (by decide) (by decide)

/- ── Pretty JSON serialization (serde_json::to_string_pretty for TaskList) ─── -/

/-- Lowercase hexadecimal digit. -/
def hexDigit (n : Nat) : Char :=
  if n < 10 then Char.ofNat (48 + n) else Char.ofNat (87 + n)

/-- JSON string escaping as performed by serde_json: quote, backslash, the
short control escapes, and `\u00XX` for the remaining control characters. -/
def jsonEscapeChar (c : Char) : List Char :=
  if c = '"' then ['\\', '"']
  else if c = '\\' then ['\\', '\\']
  else if c.toNat = 8 then ['\\', 'b']
  else if c = '\t' then ['\\', 't']
  else if c = '\n' then ['\\', 'n']
  else if c.toNat = 12 then ['\\', 'f']
  else if c = '\r' then ['\\', 'r']
  else if c.toNat < 32 then
    ['\\', 'u', '0', '0', hexDigit (c.toNat / 16), hexDigit (c.toNat % 16)]
  else [c]

/-- Render a JSON string literal, quotes included. -/
def jsonQuote (s : String) : String :=
  "\"" ++ String.mk (s.toList.map jsonEscapeChar).flatten ++ "\""

/-- Snake-case serialization of `TaskStatus` (serde `rename_all = "snake_case"`). -/
def statusJson : TaskStatus → String
  | TaskStatus.pending => "\"pending\""
  | TaskStatus.inProgress => "\"in_progress\""
  | TaskStatus.complete => "\"complete\""
  | TaskStatus.failed => "\"failed\""

/-- Items of a `depends_on` array at serde_json pretty depth 4 (indent 8). -/
def serializeDepsItems : List String → String
  | [] => ""
  | [d] => "        " ++ jsonQuote d
  | d :: ds => "        " ++ jsonQuote d ++ ",\n" ++ serializeDepsItems ds

/-- Render a `depends_on` array whose opening bracket sits after the field
name at depth 3 (indent 6). -/
def serializeDeps (deps : List String) : String :=
  match deps with
  | [] => "[]"
  | _ => "[\n" ++ serializeDepsItems deps ++ "\n      ]"

/-- Pretty rendering of one `Task` object at depth 2 (indent 4), with
`completed_at` and `notes` skipped when absent
(`skip_serializing_if = "Option::is_none"`). -/
def serializeTaskPretty (t : Task) : String :=
  "    \x7b\n" ++
  "      \"id\": " ++ jsonQuote t.id ++ ",\n" ++
  "      \"title\": " ++ jsonQuote t.title ++ ",\n" ++
  "      \"description\": " ++ jsonQuote t.description ++ ",\n" ++
  "      \"priority\": " ++ toString t.priority ++ ",\n" ++
  "      \"status\": " ++ statusJson t.status ++ ",\n" ++
  "      \"depends_on\": " ++ serializeDeps t.depends_on ++
  (match t.completed_at with
    | none => ""
    | some ts => ",\n      \"completed_at\": " ++ jsonQuote ts) ++
  (match t.notes with
    | none => ""
    | some n => ",\n      \"notes\": " ++ jsonQuote n) ++
  "\n    \x7d"

/-- Comma-joined task objects of the `tasks` array. -/
def serializeTasksItems : List Task → String
  | [] => ""
  | [t] => serializeTaskPretty t
  | t :: ts => serializeTaskPretty t ++ ",\n" ++ serializeTasksItems ts

/-- Model of `serde_json::to_string_pretty(&task_list)` for the `TaskList`
schema (2-space indentation, field order as declared). -/
def serializeTaskListPretty (tl : TaskList) : String :=
  "\x7b\n" ++
  "  \"version\": " ++ toString tl.version ++ ",\n" ++
  "  \"prd_path\": " ++ jsonQuote tl.prd_path ++ ",\n" ++
  "  \"created_at\": " ++ jsonQuote tl.created_at ++ ",\n" ++
  "  \"updated_at\": " ++ jsonQuote tl.updated_at ++ ",\n" ++
  "  \"tasks\": " ++
  (match tl.tasks with
    | [] => "[]"
    | ts => "[\n" ++ serializeTasksItems ts ++ "\n  ]") ++
  "\n\x7d"

/- ── Filesystem model and `save_tasks` (state/mod.rs lines 241-256) ────────── -/

/-- Directory contents: an association list from paths to file contents. -/
def lookupFile : List (String × String) → String → Option String
  | [], _ => none
  | (p, c) :: rest, path => if p = path then some c else lookupFile rest path

/-- Remove a path from the filesystem (models file deletion). -/
def eraseFile (fs : List (String × String)) (path : String) : List (String × String) :=
  fs.filter (fun e => !(decide (e.1 = path)))

/-- Create or overwrite a file (models file creation and rename-over). -/
def setFile (fs : List (String × String)) (path content : String) : List (String × String) :=
  eraseFile fs path ++ [(path, content)]

/-- Point at which an induced failure hits `save_tasks`:
`NamedTempFile::new_in`, `write_all`, or `persist` (the atomic rename). -/
inductive SaveFailureStep where
  | createTempFile
  | writeTempFile
  | persistTempFile
deriving DecidableEq

/-- Mirror of `StateManager::save_tasks`: serialize pretty
(`serde_json::to_string_pretty`, infallible for this schema), create a named
temporary file inside `.ralph/` (the same directory as `tasks.json`), write
the serialization into it, and `persist` (atomically rename) it over
`tasks.json`.  `failAt` injects a failure at one of the three fallible steps;
on the write and persist failures the `NamedTempFile` guard is dropped, which
deletes the temporary file.  Returns the `Result` together with the resulting
directory contents. -/
def saveTasksModel (tl : TaskList) (fs : List (String × String)) (ralphDir tmpName : String)
    (failAt : Option SaveFailureStep) : Except String Unit × List (String × String) :=
  let content := serializeTaskListPretty tl
  let tasksFile := ralphDir ++ "/tasks.json"
  let tmpPath := ralphDir ++ "/" ++ tmpName
  match failAt with
  | some SaveFailureStep.createTempFile =>
    (Except.error "Failed to create temp file for tasks.json", fs)
  | some SaveFailureStep.writeTempFile =>
    (Except.error "Failed to write temp tasks.json",
      eraseFile (setFile fs tmpPath "") tmpPath)
  | some SaveFailureStep.persistTempFile =>
    (Except.error "Failed to atomically replace tasks.json",
      eraseFile (setFile (setFile fs tmpPath "") tmpPath content) tmpPath)
  | none =>
    (Except.ok (),
      setFile (eraseFile (setFile (setFile fs tmpPath "") tmpPath content) tmpPath)
        tasksFile content)

theorem lookupFile_eraseFile (fs : List (String × String)) (p q : String) :
    lookupFile (eraseFile fs p) q = if q = p then none else lookupFile fs q := by
  induction fs with
  | nil => simp [eraseFile, lookupFile]
  | cons e rest ih =>
    obtain ⟨ep, ec⟩ := e
    by_cases hep : ep = p
    · subst hep
      have h1 : eraseFile ((ep, ec) :: rest) ep = eraseFile rest ep := by
        simp [eraseFile]
      rw [h1, ih]
      by_cases hq : q = ep
      · simp [hq]
      · have : ¬ ep = q := fun h => hq h.symm
        simp [hq, lookupFile, this]
    · have h1 : eraseFile ((ep, ec) :: rest) p = (ep, ec) :: eraseFile rest p := by
        simp [eraseFile, hep]
      rw [h1]
      by_cases heq : ep = q
      · subst heq
        simp [lookupFile, hep]
      · simp [lookupFile, heq, ih]

theorem lookupFile_append (l₁ l₂ : List (String × String)) (q : String) :
    lookupFile (l₁ ++ l₂) q =
      match lookupFile l₁ q with
      | some c => some c
      | none => lookupFile l₂ q := by
  induction l₁ with
  | nil => simp [lookupFile]
  | cons e rest ih =>
    obtain ⟨ep, ec⟩ := e
    by_cases h : ep = q <;> simp [lookupFile, h, ih]

theorem lookupFile_setFile (fs : List (String × String)) (p c q : String) :
    lookupFile (setFile fs p c) q = if q = p then some c else lookupFile fs q := by
  rw [setFile, lookupFile_append, lookupFile_eraseFile]
  by_cases h : q = p
  · simp [h, lookupFile]
  · have h' : ¬ p = q := fun hpq => h hpq.symm
    simp [h, lookupFile, h']
    cases lookupFile fs q <;> simp

theorem eraseFile_of_lookup_none (fs : List (String × String)) (p : String)
    (h : lookupFile fs p = none) : eraseFile fs p = fs := by
  induction fs with
  | nil => rfl
  | cons e rest ih =>
    obtain ⟨ep, ec⟩ := e
    by_cases hep : ep = p
    · simp [lookupFile, hep] at h
    · have h' : lookupFile rest p = none := by
        simpa [lookupFile, hep] using h
      have h2 := ih h'
      simp only [eraseFile] at h2 ⊢
      simp [hep, h2]

theorem eraseFile_setFile (fs : List (String × String)) (p c : String) :
    eraseFile (setFile fs p c) p = eraseFile fs p := by
  simp [setFile, eraseFile, List.filter_append, List.filter_filter]

/- ── C4 ────────────────────────────────────────────────────────────────────── -/

/-- C4: `save_tasks` writes the pretty JSON serialization to a temporary file
in the task file's own directory and renames it over `tasks.json`; on success
the target holds exactly the serialization, the temporary is gone and no
other path changed, while a failure injected at any step leaves the directory
contents — in particular the previous `tasks.json` — bit-exactly unchanged,
with no partial file visible. -/
theorem save_tasks_atomic (tl : TaskList) (fs : List (String × String))
    (ralphDir tmpName : String)
    (hFresh : lookupFile fs (ralphDir ++ "/" ++ tmpName) = none)
    (hDistinct : ¬ (ralphDir ++ "/" ++ tmpName) = (ralphDir ++ "/tasks.json")) :
    ((saveTasksModel tl fs ralphDir tmpName none).1 = Except.ok () ∧
      lookupFile (saveTasksModel tl fs ralphDir tmpName none).2 (ralphDir ++ "/tasks.json") =
        some (serializeTaskListPretty tl) ∧
      lookupFile (saveTasksModel tl fs ralphDir tmpName none).2 (ralphDir ++ "/" ++ tmpName) =
        none ∧
      ∀ p, ¬ p = (ralphDir ++ "/tasks.json") →
        lookupFile (saveTasksModel tl fs ralphDir tmpName none).2 p = lookupFile fs p) ∧
    (∀ step,
      (∃ e, (saveTasksModel tl fs ralphDir tmpName (some step)).1 = Except.error e) ∧
      (saveTasksModel tl fs ralphDir tmpName (some step)).2 = fs) := by
  have hclean :
      eraseFile (setFile (setFile fs (ralphDir ++ "/" ++ tmpName) "")
          (ralphDir ++ "/" ++ tmpName) (serializeTaskListPretty tl))
        (ralphDir ++ "/" ++ tmpName) = fs := by
    rw [eraseFile_setFile, eraseFile_setFile, eraseFile_of_lookup_none fs _ hFresh]
  constructor
  · refine ⟨rfl, ?_, ?_, ?_⟩
    · show lookupFile (setFile _ (ralphDir ++ "/tasks.json") _) _ = _
      rw [lookupFile_setFile]
      simp
    · show lookupFile (setFile _ (ralphDir ++ "/tasks.json") _) _ = _
      rw [lookupFile_setFile, if_neg hDistinct, hclean]
      exact hFresh
    · intro p hp
      show lookupFile (setFile _ (ralphDir ++ "/tasks.json") _) _ = _
      rw [lookupFile_setFile, if_neg hp, hclean]
  · intro step
    cases step
    · exact ⟨⟨_, rfl⟩, rfl⟩
    · refine ⟨⟨_, rfl⟩, ?_⟩
      show eraseFile (setFile fs _ "") _ = fs
      rw [eraseFile_setFile, eraseFile_of_lookup_none fs _ hFresh]
    · exact ⟨⟨_, rfl⟩, hclean⟩

/-- Witness for C4: an injected write failure leaves a concrete directory,
holding an old `tasks.json`, unchanged. -/
theorem save_tasks_atomic_witness :
    (saveTasksModel ⟨1, "prd.md", "c", "u", []⟩ [(".ralph/tasks.json", "old")] ".ralph"
        "tmpXYZ" (some SaveFailureStep.writeTempFile)).2 = [(".ralph/tasks.json", "old")] :=
  ((save_tasks_atomic ⟨1, "prd.md", "c", "u", []⟩ [(".ralph/tasks.json", "old")] ".ralph"
      "tmpXYZ" (by decide) (by decide)).2 SaveFailureStep.writeTempFile).2

/- ── JSON parsing (model of serde_json::from_str for the lock file) ────────── -/

/-- Parsed JSON values; numbers keep their source lexeme so that integer
versus float distinctions survive. -/
inductive Json where
  | null
  | bool (b : Bool)
  | num (lexeme : String)
  | str (s : String)
  | arr (items : List Json)
  | obj (fields : List (String × Json))

/-- Skip JSON insignificant whitespace. -/
def skipJsonWs (cs : List Char) : List Char :=
  cs.dropWhile (fun c =>
    decide (c = ' ') || decide (c = '\t') || decide (c = '\n') || decide (c = '\r'))

/-- Value of a hexadecimal digit. -/
def hexVal (c : Char) : Option Nat :=
  if '0' ≤ c ∧ c ≤ '9' then some (c.toNat - 48)
  else if 'a' ≤ c ∧ c ≤ 'f' then some (c.toNat - 87)
  else if 'A' ≤ c ∧ c ≤ 'F' then some (c.toNat - 55)
  else none

/-- Parse the body of a JSON string after the opening quote, handling the
escape sequences; returns the decoded characters and the remainder after the
closing quote.  Fuel-based recursion (the fuel is instantiated above the
input length, so it never runs out on the inputs parsed). -/
def parseStringBody : Nat → List Char → Option (List Char × List Char)
  | 0, _ => none
  | _, [] => none
  | fuel + 1, c :: cs =>
    if c = '"' then some ([], cs)
    else if c = '\\' then
      match cs with
      | [] => none
      | e :: cs' =>
        let dec : Option (Char × List Char) :=
          if e = '"' then some ('"', cs')
          else if e = '\\' then some ('\\', cs')
          else if e = '/' then some ('/', cs')
          else if e = 'n' then some ('\n', cs')
          else if e = 't' then some ('\t', cs')
          else if e = 'r' then some ('\r', cs')
          else if e = 'b' then some (Char.ofNat 8, cs')
          else if e = 'f' then some (Char.ofNat 12, cs')
          else if e = 'u' then
            match cs' with
            | h1 :: h2 :: h3 :: h4 :: cs'' =>
              match hexVal h1, hexVal h2, hexVal h3, hexVal h4 with
              | some a, some b, some c2, some d =>
                some (Char.ofNat (((a * 16 + b) * 16 + c2) * 16 + d), cs'')
              | _, _, _, _ => none
            | _ => none
          else none
        match dec with
        | none => none
        | some (ch, rest) =>
          match parseStringBody fuel rest with
          | none => none
          | some (out, rem) => some (ch :: out, rem)
    else if c.toNat < 32 then none
    else
      match parseStringBody fuel cs with
      | none => none
      | some (out, rem) => some (c :: out, rem)

/-- Optional fraction part of a JSON number. -/
def parseFracPart (cs : List Char) : Option (List Char × List Char) :=
  match cs with
  | '.' :: rest =>
    let ds := rest.takeWhile Char.isDigit
    if ds.isEmpty then none
    else some ('.' :: ds, rest.dropWhile Char.isDigit)
  | _ => some ([], cs)

/-- Optional exponent part of a JSON number. -/
def parseExpPart (cs : List Char) : Option (List Char × List Char) :=
  match cs with
  | [] => some ([], [])
  | e :: rest =>
    if e = 'e' ∨ e = 'E' then
      let sgnRest : List Char × List Char :=
        match rest with
        | '+' :: r => (['+'], r)
        | '-' :: r => (['-'], r)
        | _ => ([], rest)
      let ds := sgnRest.2.takeWhile Char.isDigit
      if ds.isEmpty then none
      else some (e :: (sgnRest.1 ++ ds), sgnRest.2.dropWhile Char.isDigit)
    else some ([], e :: rest)

/-- Parse a JSON number lexeme (`-? int frac? exp?`, no leading zeros). -/
def parseNumberLexeme (cs : List Char) : Option (List Char × List Char) :=
  let negRest : List Char × List Char :=
    match cs with
    | '-' :: rest => (['-'], rest)
    | _ => ([], cs)
  let intPart : Option (List Char × List Char) :=
    match negRest.2 with
    | [] => none
    | d :: rest =>
      if d = '0' then some (negRest.1 ++ ['0'], rest)
      else if d.isDigit then
        some (negRest.1 ++ [d] ++ rest.takeWhile Char.isDigit, rest.dropWhile Char.isDigit)
      else none
  match intPart with
  | none => none
  | some (ip, rest1) =>
    match parseFracPart rest1 with
    | none => none
    | some (fp, rest2) =>
      match parseExpPart rest2 with
      | none => none
      | some (ep, rest3) => some (ip ++ fp ++ ep, rest3)

mutual

/-- Recursive-descent JSON value parser (fuel-based). -/
def parseJsonValue : Nat → List Char → Option (Json × List Char)
  | 0, _ => none
  | fuel + 1, cs =>
    match skipJsonWs cs with
    | [] => none
    | c :: rest =>
      if c = 'n' then
        match rest with
        | 'u' :: 'l' :: 'l' :: rem => some (Json.null, rem)
        | _ => none
      else if c = 't' then
        match rest with
        | 'r' :: 'u' :: 'e' :: rem => some (Json.bool true, rem)
        | _ => none
      else if c = 'f' then
        match rest with
        | 'a' :: 'l' :: 's' :: 'e' :: rem => some (Json.bool false, rem)
        | _ => none
      else if c = '"' then
        match parseStringBody (rest.length + 1) rest with
        | some (out, rem) => some (Json.str (String.mk out), rem)
        | none => none
      else if c = '[' then
        match skipJsonWs rest with
        | ']' :: rem => some (Json.arr [], rem)
        | _ =>
          match parseJsonItems fuel rest with
          | some (items, rem) => some (Json.arr items, rem)
          | none => none
      else if c = '\x7b' then
        match skipJsonWs rest with
        | '\x7d' :: rem => some (Json.obj [], rem)
        | _ =>
          match parseJsonFields fuel rest with
          | some (fields, rem) => some (Json.obj fields, rem)
          | none => none
      else if c = '-' ∨ c.isDigit then
        match parseNumberLexeme (c :: rest) with
        | some (lex, rem) => some (Json.num (String.mk lex), rem)
        | none => none
      else none

/-- Comma-separated array items up to the closing bracket. -/
def parseJsonItems : Nat → List Char → Option (List Json × List Char)
  | 0, _ => none
  | fuel + 1, cs =>
    match parseJsonValue fuel cs with
    | none => none
    | some (v, rest) =>
      match skipJsonWs rest with
      | ',' :: rest' =>
        match parseJsonItems fuel rest' with
        | some (vs, rem) => some (v :: vs, rem)
        | none => none
      | ']' :: rem => some ([v], rem)
      | _ => none

/-- Comma-separated object fields up to the closing brace. -/
def parseJsonFields : Nat → List Char → Option (List (String × Json) × List Char)
  | 0, _ => none
  | fuel + 1, cs =>
    match skipJsonWs cs with
    | '"' :: rest =>
      match parseStringBody (rest.length + 1) rest with
      | none => none
      | some (key, rest1) =>
        match skipJsonWs rest1 with
        | ':' :: rest2 =>
          match parseJsonValue fuel rest2 with
          | none => none
          | some (v, rest3) =>
            match skipJsonWs rest3 with
            | ',' :: rest4 =>
              match parseJsonFields fuel rest4 with
              | some (fields, rem) => some ((String.mk key, v) :: fields, rem)
              | none => none
            | '\x7d' :: rem => some ([(String.mk key, v)], rem)
            | _ => none
        | _ => none
    | _ => none

end

/-- Parse a complete JSON document: one value, with only whitespace around it
(serde_json::from_str requires full consumption). -/
def parseJsonText (s : String) : Option Json :=
  let fuel := s.toList.length * 2 + 8
  match parseJsonValue fuel s.toList with
  | none => none
  | some (j, rest) =>
    if (skipJsonWs rest).isEmpty then some j else none

/- ── Lock-file deserialization and read_lock (state/mod.rs lines 309-330) ──── -/

/-- First field with the given key (serde_json rejects duplicate fields for a
derived struct; taking the first occurrence only differs on that corner,
which no claim here depends on). -/
def jsonLookupField (fields : List (String × Json)) (key : String) : Option Json :=
  match fields with
  | [] => none
  | (k, v) :: rest => if k = key then some v else jsonLookupField rest key

/-- Extract a JSON string. -/
def jsonAsString : Json → Option String
  | Json.str s => some s
  | _ => none

/-- Decimal digits to a natural number. -/
def charsToNatAcc : Nat → List Char → Nat
  | acc, [] => acc
  | acc, c :: cs => charsToNatAcc (acc * 10 + (c.toNat - 48)) cs

/-- Extract a `u32`: an unsigned integer lexeme (no sign, fraction or
exponent) whose value fits in 32 bits, as serde requires for `pid`. -/
def jsonAsU32 : Json → Option Nat
  | Json.num lex =>
    let cs := lex.toList
    if ¬ cs = [] ∧ cs.all Char.isDigit then
      let n := charsToNatAcc 0 cs
      if n < 4294967296 then some n else none
    else none
  | _ => none

/-- Model of deserializing a `LockFile` from a parsed JSON value: an object
carrying the six required fields with their required types (unknown extra
fields are ignored; chrono's RFC3339 validation of `started_at` is elided —
the field is kept as its string form). -/
def lockFileFromJson (j : Json) : Option LockFile :=
  match j with
  | Json.obj fields =>
    (jsonLookupField fields "pid").bind fun pj =>
    (jsonAsU32 pj).bind fun pid =>
    (jsonLookupField fields "current_task").bind fun ctJ =>
    (jsonAsString ctJ).bind fun ct =>
    (jsonLookupField fields "progress").bind fun prJ =>
    (jsonAsString prJ).bind fun pr =>
    (jsonLookupField fields "started_at").bind fun saJ =>
    (jsonAsString saJ).bind fun sa =>
    (jsonLookupField fields "prd_path").bind fun ppJ =>
    (jsonAsString ppJ).bind fun pp =>
    (jsonLookupField fields "agent").bind fun agJ =>
    (jsonAsString agJ).map fun ag =>
      { pid := pid, current_task := ct, progress := pr, started_at := sa,
        prd_path := pp, agent := ag }
  | _ => none

/-- Model of `serde_json::from_str::<LockFile>`. -/
def parseLockContent (content : String) : Option LockFile :=
  (parseJsonText content).bind lockFileFromJson

/-- Mirror of `StateManager::read_lock`: an absent lock file yields `Ok(None)`
(`content` is the file's contents when it exists); content that fails to
deserialize propagates an error through the `?` operator with context
`"Failed to parse .ralph/lock"`. -/
def readLockModel (content : Option String) : Except String (Option LockFile) :=
  match content with
  | none => Except.ok none
  | some c =>
    match parseLockContent c with
    | none => Except.error "Failed to parse .ralph/lock"
    | some lock => Except.ok (some lock)

/- ── C7 ────────────────────────────────────────────────────────────────────── -/

/-- C7 counterexample: on lock-file content that is not well-formed JSON,
`read_lock` returns an error — it does not treat the lock as absent. -/
theorem read_lock_counterexample :
    readLockModel (some "not json") = Except.error "Failed to parse .ralph/lock" := by
  rfl

/-- C7 (amended): `read_lock` returns none when the lock file does not exist,
but content that fails to deserialize as a lock record produces an error
(context "Failed to parse .ralph/lock") rather than none; well-formed content
yields the parsed record. -/
theorem read_lock_amended :
    readLockModel none = Except.ok none ∧
    ∀ c, (parseLockContent c = none →
        readLockModel (some c) = Except.error "Failed to parse .ralph/lock") ∧
      ∀ l, parseLockContent c = some l → readLockModel (some c) = Except.ok (some l) := by
  refine ⟨rfl, fun c => ⟨?_, ?_⟩⟩
  · intro h
    simp [readLockModel, h]
  · intro l h
    simp [readLockModel, h]

set_option maxRecDepth 8192 in
/-- Witness for C7 (amended): a concrete well-formed lock file parses. -/
theorem read_lock_amended_witness :
    readLockModel (some "\x7b \"pid\": 42, \"current_task\": \"T1\", \"progress\": \"0/1 done\", \"started_at\": \"2026-01-01T00:00:00Z\", \"prd_path\": \"prd.md\", \"agent\": \"codex\" \x7d") =
      Except.ok (some ⟨42, "T1", "0/1 done", "2026-01-01T00:00:00Z", "prd.md", "codex"⟩) :=
  ((read_lock_amended).2 "\x7b \"pid\": 42, \"current_task\": \"T1\", \"progress\": \"0/1 done\", \"started_at\": \"2026-01-01T00:00:00Z\", \"prd_path\": \"prd.md\", \"agent\": \"codex\" \x7d").2
    ⟨42, "T1", "0/1 done", "2026-01-01T00:00:00Z", "prd.md", "codex"⟩ (by rfl)

/- ── Task-list validation (state/mod.rs `validate_task_list`, lines 359-410) ── -/

/-- Ids of the tasks of a list, in order. -/
def taskIds (tasks : List Task) : List String := tasks.map Task.id

/-- Dependency edges `(dep, task.id)`, with multiplicity, in task order: the
edge `(a, b)` means `b` depends on `a`. -/
def allEdges : List Task → List (String × String)
  | [] => []
  | t :: ts => t.depends_on.map (fun d => (d, t.id)) ++ allEdges ts

/-- Association-list model of the `indegree: HashMap<&str, usize>` lookups. -/
def lookupNat : List (String × Nat) → String → Option Nat
  | [], _ => none
  | (k, v) :: rest, key => if k = key then some v else lookupNat rest key

/-- Model of `indegree.get_mut(key)` assignment: updates the entry when the
key is present and does nothing otherwise. -/
def setNat : List (String × Nat) → String → Nat → List (String × Nat)
  | [], _, _ => []
  | (k, v) :: rest, key, newVal =>
    if k = key then (k, newVal) :: rest else (k, v) :: setNat rest key newVal

/-- Model of `outgoing.get(id)` with the empty default (`validate_task_list`
only iterates the entry when present). -/
def lookupOutgoing : List (String × List String) → String → List String
  | [], _ => []
  | (k, vs) :: rest, key => if k = key then vs else lookupOutgoing rest key

/-- Model of `outgoing.entry(dep).or_default().push(task.id)`. -/
def pushOutgoing : List (String × List String) → String → String → List (String × List String)
  | [], key, val => [(key, [val])]
  | (k, vs) :: rest, key, val =>
    if k = key then (k, vs ++ [val]) :: rest else (k, vs) :: pushOutgoing rest key val

/-- Model of building the indegree map: `indegree.insert(task.id,
task.depends_on.len())` for each task.  On duplicate ids Rust overwrites an
entry where this keeps both, but `validate_task_list` bails out on duplicate
ids before the map is ever consulted, so the two never differ on a reachable
input (the lookups below read the first entry, matching the overwriting map
on id-unique lists). -/
def buildIndegree (tasks : List Task) : List (String × Nat) :=
  tasks.map (fun t => (t.id, t.depends_on.length))

/-- Model of building the `outgoing` adjacency map. -/
def buildOutgoing (tasks : List Task) : List (String × List String) :=
  tasks.foldl (fun m t => t.depends_on.foldl (fun m2 dep => pushOutgoing m2 dep t.id) m) []

/-- Model of the initial queue: ids whose indegree is zero, in map iteration
order (Rust iterates a `HashMap` in unspecified order; this iterates in task
order — the visited count proved about below is order-independent). -/
def initQueue (indeg : List (String × Nat)) : List String :=
  indeg.filterMap (fun kv => if kv.2 = 0 then some kv.1 else none)

/-- Sum of all indegree values (the termination measure of the Kahn loop). -/
def sumIndegree (indeg : List (String × Nat)) : Nat :=
  (indeg.map Prod.snd).sum

/-- Model of the inner loop over `outgoing.get(id)`: decrement each
dependent's indegree and collect (in order) those that reached zero.  Rust
checks `*entry == 0` after `*entry -= 1`, i.e. pushes exactly when the
pre-decrement value was 1; an entry already at 0 is never decremented on a
reachable state (and Rust's release-mode wrapped value is nonzero, so it
would not be pushed there either — this model's saturating `v - 1` agrees). -/
def processDependents : List String → List (String × Nat) → List (String × Nat) × List String
  | [], indeg => (indeg, [])
  | d :: ds, indeg =>
    match lookupNat indeg d with
    | none => processDependents ds indeg
    | some v =>
      let step := processDependents ds (setNat indeg d (v - 1))
      (step.1, if v = 1 then d :: step.2 else step.2)

/-- The Kahn `while let Some(id) = queue.pop_front()` loop.  Rust counts the
visits in `visited`; this returns the dequeue order, whose length is that
count.  The recursion is fuel-based; `kahnRun` instantiates the fuel at
`queue.length + sumIndegree indeg`, which `processDependents_measure` shows
never runs out. -/
def kahnLoopListF (outgoing : List (String × List String)) :
    Nat → List String → List (String × Nat) → List String
  | 0, _, _ => []
  | _ + 1, [], _ => []
  | fuel + 1, q :: rest, indeg =>
    let step := processDependents (lookupOutgoing outgoing q) indeg
    q :: kahnLoopListF outgoing fuel (rest ++ step.2) step.1

/-- The topological pass of `validate_task_list`: visit order of Kahn's
algorithm over the dependency edges. -/
def kahnRun (tasks : List Task) : List String :=
  let indeg0 := buildIndegree tasks
  let queue0 := initQueue indeg0
  kahnLoopListF (buildOutgoing tasks) (queue0.length + sumIndegree indeg0) queue0 indeg0

/-- Model of the duplicate-id pass (`seen_ids.insert` failing on
re-insertion); returns the first duplicate. -/
def findDuplicateId : List String → List String → Option String
  | _, [] => none
  | seen, i :: rest => if i ∈ seen then some i else findDuplicateId (i :: seen) rest

/-- First dependency of one task that is not a known id. -/
def firstUnknownIn (ids : List String) (tid : String) : List String → Option (String × String)
  | [] => none
  | d :: ds => if d ∈ ids then firstUnknownIn ids tid ds else some (tid, d)

/-- Model of the unknown-dependency pass (`indegree.contains_key(dep)`, whose
keys are exactly the task ids). -/
def findUnknownDep (ids : List String) : List Task → Option (String × String)
  | [] => none
  | t :: ts =>
    match firstUnknownIn ids t.id t.depends_on with
    | some p => some p
    | none => findUnknownDep ids ts

/-- Mirror of `validate_task_list` in src/state/mod.rs: duplicate-id check,
unknown-dependency check, then Kahn's algorithm, failing with "circular"
when fewer nodes are visited than exist. -/
def validateTaskList (tl : TaskList) : Except String Unit :=
  match findDuplicateId [] (taskIds tl.tasks) with
  | some i => Except.error ("Duplicate task id detected: " ++ i)
  | none =>
    match findUnknownDep (taskIds tl.tasks) tl.tasks with
    | some p => Except.error ("Task '" ++ p.1 ++ "' depends on unknown task '" ++ p.2 ++ "'")
    | none =>
      if ¬ (kahnRun tl.tasks).length = tl.tasks.length then
        Except.error "Circular task dependencies detected in tasks.json"
      else
        Except.ok ()

/-- The dependency relation of the spec: `EdgeTo tl a b` when some task with
id `b` lists `a` among its dependencies (`a` must come before `b`). -/
def EdgeTo (tl : TaskList) (a b : String) : Prop :=
  ∃ t ∈ tl.tasks, t.id = b ∧ a ∈ t.depends_on

/-- Every dependency names an id that exists in the list. -/
def DepKnown (tl : TaskList) : Prop :=
  ∀ t ∈ tl.tasks, ∀ dep ∈ t.depends_on, ∃ u ∈ tl.tasks, u.id = dep

/-- A cycle in the dependency relation: a chain of at least one edge that
returns to its starting id. -/
def HasCycle (tl : TaskList) : Prop :=
  ∃ l : List String, l.Chain' (EdgeTo tl) ∧ 2 ≤ l.length ∧ l.head? = l.getLast?

/-- Edges into `b` whose source has not been processed yet — the value the
indegree map holds for `b` after processing the ids in `P`. -/
def remainIndeg (tasks : List Task) (P : List String) (b : String) : Nat :=
  (allEdges tasks).countP (fun e => decide (e.2 = b) && !(decide (e.1 ∈ P)))

/-- Number of edges from `q` to `b` (with multiplicity). -/
def edgeCount (tasks : List Task) (q b : String) : Nat :=
  (allEdges tasks).countP (fun e => decide (e.1 = q) && decide (e.2 = b))

/-- Dependents of `q` (edge targets from `q`), with multiplicity, in task
order — the list the `outgoing` map associates with `q`. -/
def edgesFrom : List Task → String → List String
  | [], _ => []
  | t :: ts, q => List.replicate (t.depends_on.count q) t.id ++ edgesFrom ts q

theorem sumIndegree_setNat (indeg : List (String × Nat)) (d : String) :
    ∀ v w, lookupNat indeg d = some v →
      sumIndegree (setNat indeg d w) + v = sumIndegree indeg + w := by
  induction indeg with
  | nil => intro v w h; simp [lookupNat] at h
  | cons e rest ih =>
    obtain ⟨k, x⟩ := e
    intro v w h
    by_cases hk : k = d
    · rw [lookupNat, if_pos hk] at h
      obtain rfl : x = v := Option.some.inj h
      simp [setNat, hk, sumIndegree]
      omega
    · rw [lookupNat, if_neg hk] at h
      have := ih v w h
      simp [setNat, hk, sumIndegree] at this ⊢
      omega

theorem processDependents_measure (ds : List String) :
    ∀ indeg, sumIndegree (processDependents ds indeg).1 +
      (processDependents ds indeg).2.length ≤ sumIndegree indeg := by
  induction ds with
  | nil => intro indeg; simp [processDependents]
  | cons d rest ih =>
    intro indeg
    rcases h : lookupNat indeg d with _ | v
    · simpa [processDependents, h] using ih indeg
    · have hsum := sumIndegree_setNat indeg d v (v - 1) h
      have hrec := ih (setNat indeg d (v - 1))
      by_cases hv : v = 1
      · simp [processDependents, h, hv] at hsum hrec ⊢
        omega
      · simp [processDependents, h, hv]
        omega

theorem lookupNat_setNat_self (indeg : List (String × Nat)) (d : String) :
    ∀ v w, lookupNat indeg d = some v → lookupNat (setNat indeg d w) d = some w := by
  induction indeg with
  | nil => intro v w h; simp [lookupNat] at h
  | cons e rest ih =>
    obtain ⟨k, x⟩ := e
    intro v w h
    by_cases hk : k = d
    · simp [setNat, hk, lookupNat]
    · rw [lookupNat, if_neg hk] at h
      simp [setNat, hk, lookupNat, ih v w h]

theorem lookupNat_setNat_other (indeg : List (String × Nat)) (d b : String)
    (hne : ¬ d = b) : ∀ w, lookupNat (setNat indeg d w) b = lookupNat indeg b := by
  induction indeg with
  | nil => intro w; simp [setNat]
  | cons e rest ih =>
    obtain ⟨k, x⟩ := e
    intro w
    by_cases hk : k = d
    · subst hk
      simp [setNat, lookupNat, hne]
    · simp [setNat, hk, lookupNat, ih]

theorem setNat_keys (indeg : List (String × Nat)) (d : String) :
    ∀ w, (setNat indeg d w).map Prod.fst = indeg.map Prod.fst := by
  induction indeg with
  | nil => intro w; rfl
  | cons e rest ih =>
    obtain ⟨k, x⟩ := e
    intro w
    by_cases hk : k = d <;> simp [setNat, hk, ih]

theorem processDependents_keys (ds : List String) :
    ∀ indeg, (processDependents ds indeg).1.map Prod.fst = indeg.map Prod.fst := by
  induction ds with
  | nil => intro indeg; rfl
  | cons d rest ih =>
    intro indeg
    rcases h : lookupNat indeg d with _ | v
    · simpa [processDependents, h] using ih indeg
    · simp [processDependents, h]
      rw [ih (setNat indeg d (v - 1)), setNat_keys]

theorem processDependents_lookup (ds : List String) :
    ∀ indeg b, lookupNat (processDependents ds indeg).1 b =
      match lookupNat indeg b with
      | none => none
      | some v => some (v - ds.count b) := by
  induction ds with
  | nil =>
    intro indeg b
    simp [processDependents]
    rcases lookupNat indeg b with _ | v <;> simp
  | cons d rest ih =>
    intro indeg b
    rcases h : lookupNat indeg d with _ | v
    · by_cases hb : b = d
      · subst hb
        simp [processDependents, h, ih indeg b]
      · have hcount : (d :: rest).count b = rest.count b := by
          simp [List.count_cons, hb]
        simp [processDependents, h, ih indeg b, hcount]
    · by_cases hb : b = d
      · subst hb
        have hself := lookupNat_setNat_self indeg b v (v - 1) h
        have := ih (setNat indeg b (v - 1)) b
        rw [hself] at this
        have hcount : (b :: rest).count b = rest.count b + 1 := by
          simp [List.count_cons]
        simp [processDependents, h, this, hcount]
        try omega
      · have hother := lookupNat_setNat_other indeg d b (fun hdb => hb hdb.symm) (v - 1)
        have := ih (setNat indeg d (v - 1)) b
        rw [hother] at this
        have hcount : (d :: rest).count b = rest.count b := by
          simp [List.count_cons, hb]
        simp [processDependents, h, this, hcount]

theorem processDependents_zeros_mem (ds : List String) :
    ∀ indeg x, x ∈ (processDependents ds indeg).2 ↔
      ∃ v, lookupNat indeg x = some v ∧ 1 ≤ v ∧ v ≤ ds.count x := by
  induction ds with
  | nil =>
    intro indeg x
    constructor
    · intro hmem
      simp [processDependents] at hmem
    · rintro ⟨v, -, h1, h2⟩
      simp at h2
      omega
  | cons d rest ih =>
    intro indeg x
    rcases h : lookupNat indeg d with _ | v
    · by_cases hx : x = d
      · subst hx
        simp [processDependents, h, ih indeg x, h]
      · have hcount : (d :: rest).count x = rest.count x := by
          simp [List.count_cons, hx]
        simp [processDependents, h, ih indeg x, hcount]
    · by_cases hx : x = d
      · subst hx
        have hself := lookupNat_setNat_self indeg x v (v - 1) h
        have hih := ih (setNat indeg x (v - 1)) x
        rw [hself] at hih
        have hcount : (x :: rest).count x = rest.count x + 1 := by
          simp [List.count_cons]
        by_cases hv : v = 1
        · subst hv
          simp [processDependents, h, hcount]
          try omega
        · rw [show (processDependents (x :: rest) indeg).2 =
              (processDependents rest (setNat indeg x (v - 1))).2 by
                simp [processDependents, h, hv]]
          rw [hih, hcount]
          constructor
          · rintro ⟨w, hw, h1, h2⟩
            obtain rfl : v - 1 = w := Option.some.inj hw
            exact ⟨v, h, by omega, by omega⟩
          · rintro ⟨w, hw, h1, h2⟩
            obtain rfl : v = w := Option.some.inj (h ▸ hw)
            exact ⟨v - 1, rfl, by omega, by omega⟩
      · have hother := lookupNat_setNat_other indeg d x (fun hdx => hx hdx.symm) (v - 1)
        have hih := ih (setNat indeg d (v - 1)) x
        rw [hother] at hih
        have hcount : (d :: rest).count x = rest.count x := by
          simp [List.count_cons, hx]
        by_cases hv : v = 1
        · subst hv
          simp only [Nat.sub_self] at hih
          simp [processDependents, h, hih, hcount, hx]
        · simp [processDependents, h, hv, hih, hcount, hx]

theorem processDependents_zeros_nodup (ds : List String) :
    ∀ indeg, (processDependents ds indeg).2.Nodup := by
  induction ds with
  | nil => intro indeg; simp [processDependents]
  | cons d rest ih =>
    intro indeg
    rcases h : lookupNat indeg d with _ | v
    · simpa [processDependents, h] using ih indeg
    · by_cases hv : v = 1
      · subst hv
        simp [processDependents, h]
        refine ⟨?_, ih _⟩
        intro hmem
        obtain ⟨w, hw, h1, _⟩ :=
          (processDependents_zeros_mem rest (setNat indeg d 0) d).mp hmem
        rw [lookupNat_setNat_self indeg d 1 0 h] at hw
        obtain rfl : (0 : Nat) = w := Option.some.inj hw
        omega
      · simpa [processDependents, h, hv] using ih (setNat indeg d (v - 1))

theorem processDependents_zeros_sub (ds : List String) (indeg : List (String × Nat)) :
    ∀ x ∈ (processDependents ds indeg).2, x ∈ ds := by
  intro x hx
  obtain ⟨v, _, h1, h2⟩ := (processDependents_zeros_mem ds indeg x).mp hx
  have : 0 < ds.count x := by omega
  exact List.count_pos_iff.mp this

theorem lookupOutgoing_pushOutgoing (m : List (String × List String)) (k val q : String) :
    lookupOutgoing (pushOutgoing m k val) q =
      if q = k then lookupOutgoing m q ++ [val] else lookupOutgoing m q := by
  induction m with
  | nil =>
    by_cases h : q = k
    · subst h
      simp [pushOutgoing, lookupOutgoing]
    · have h' : ¬ k = q := fun hh => h hh.symm
      simp [pushOutgoing, lookupOutgoing, h, h']
  | cons e rest ih =>
    obtain ⟨k', vs⟩ := e
    by_cases hk : k' = k
    · subst hk
      by_cases hq : k' = q
      · subst hq
        simp [pushOutgoing, lookupOutgoing]
      · have hq' : ¬ q = k' := fun hh => hq hh.symm
        simp [pushOutgoing, lookupOutgoing, hq, hq']
    · by_cases hq : k' = q
      · subst hq
        simp [pushOutgoing, lookupOutgoing, hk]
      · simp [pushOutgoing, lookupOutgoing, hk, hq, ih]

theorem lookupOutgoing_foldl_deps (deps : List String) :
    ∀ (m : List (String × List String)) (tid q : String),
      lookupOutgoing (deps.foldl (fun m2 dep => pushOutgoing m2 dep tid) m) q =
        lookupOutgoing m q ++ List.replicate (deps.count q) tid := by
  induction deps with
  | nil => intro m tid q; simp
  | cons d ds ih =>
    intro m tid q
    rw [List.foldl_cons, ih, lookupOutgoing_pushOutgoing]
    by_cases hq : q = d
    · subst hq
      have hc : (q :: ds).count q = ds.count q + 1 := by simp [List.count_cons]
      rw [hc, if_pos rfl, List.append_assoc]
      simp [List.replicate_succ]
    · have hc : (d :: ds).count q = ds.count q := by simp [List.count_cons, hq]
      rw [hc, if_neg hq]

theorem lookupOutgoing_build_aux (tasks : List Task) :
    ∀ (acc : List (String × List String)) (q : String),
      lookupOutgoing (tasks.foldl (fun m t =>
          t.depends_on.foldl (fun m2 dep => pushOutgoing m2 dep t.id) m) acc) q =
        lookupOutgoing acc q ++ edgesFrom tasks q := by
  induction tasks with
  | nil => intro acc q; simp [edgesFrom]
  | cons t ts ih =>
    intro acc q
    rw [List.foldl_cons, ih, lookupOutgoing_foldl_deps, edgesFrom, List.append_assoc]

theorem lookupOutgoing_buildOutgoing (tasks : List Task) (q : String) :
    lookupOutgoing (buildOutgoing tasks) q = edgesFrom tasks q := by
  have h := lookupOutgoing_build_aux tasks [] q
  simpa [buildOutgoing, lookupOutgoing] using h

theorem edgesFrom_mem_ids (tasks : List Task) (q : String) :
    ∀ x ∈ edgesFrom tasks q, x ∈ taskIds tasks := by
  induction tasks with
  | nil => intro x hx; simp [edgesFrom] at hx
  | cons t ts ih =>
    intro x hx
    rcases List.mem_append.mp hx with hx | hx
    · have := (List.eq_of_mem_replicate hx)
      subst this
      simp [taskIds]
    · have := ih x hx
      simp [taskIds] at this ⊢
      tauto

theorem count_eq_countP_decide (l : List String) (q : String) :
    l.count q = l.countP (fun d => decide (d = q)) := by
  induction l with
  | nil => rfl
  | cons d ds ih =>
    by_cases h : d = q <;> simp [List.count_cons, List.countP_cons, h, ih]

theorem edgesFrom_count (tasks : List Task) (q b : String) :
    (edgesFrom tasks q).count b = edgeCount tasks q b := by
  induction tasks with
  | nil => simp [edgesFrom, edgeCount, allEdges]
  | cons t ts ih =>
    rw [edgesFrom, List.count_append, ih]
    rw [show edgeCount (t :: ts) q b =
        (t.depends_on.map (fun d => (d, t.id))).countP
            (fun e => decide (e.1 = q) && decide (e.2 = b)) + edgeCount ts q b by
      simp [edgeCount, allEdges, List.countP_append]]
    rw [List.countP_map, List.count_replicate]
    by_cases hb : b = t.id
    · subst hb
      simp [count_eq_countP_decide, Function.comp]
      refine List.countP_congr ?_
      intro d _
      simp [Function.comp]
    · have hb' : ¬ t.id = b := fun hh => hb hh.symm
      simp [hb, hb', Function.comp]

theorem countP_split (l : List (String × String)) (p p1 p2 : String × String → Bool)
    (h : ∀ e ∈ l, (if p e then (1 : Nat) else 0) =
      (if p1 e then (1 : Nat) else 0) + (if p2 e then (1 : Nat) else 0)) :
    l.countP p = l.countP p1 + l.countP p2 := by
  induction l with
  | nil => simp
  | cons e rest ih =>
    rw [List.countP_cons, List.countP_cons, List.countP_cons]
    have hh := h e (List.mem_cons_self e rest)
    have ht := ih (fun x hx => h x (List.mem_cons_of_mem e hx))
    omega

theorem remainIndeg_snoc (tasks : List Task) (P : List String) (q : String) (hq : ¬ q ∈ P)
    (b : String) :
    remainIndeg tasks P b = remainIndeg tasks (P ++ [q]) b + edgeCount tasks q b := by
  unfold remainIndeg edgeCount
  apply countP_split
  intro e _
  by_cases h2 : e.2 = b
  · by_cases h1 : e.1 = q
    · rw [h1]
      simp [h2, hq]
    · by_cases hP : e.1 ∈ P <;> simp [h2, h1, hP]
  · simp [h2]

theorem remainIndeg_append_le (tasks : List Task) (P : List String) (q b : String) :
    remainIndeg tasks (P ++ [q]) b ≤ remainIndeg tasks P b := by
  unfold remainIndeg
  apply List.countP_mono_left
  intro e _ h
  simp only [Bool.and_eq_true, decide_eq_true_eq, Bool.not_eq_true', decide_eq_false_iff_not] at h ⊢
  exact ⟨h.1, fun hP => h.2 (List.mem_append_left _ hP)⟩

theorem remainIndeg_eq_zero_iff (tasks : List Task) (P : List String) (b : String) :
    remainIndeg tasks P b = 0 ↔ ∀ a, (a, b) ∈ allEdges tasks → a ∈ P := by
  unfold remainIndeg
  rw [List.countP_eq_zero]
  constructor
  · intro h a ha
    have := h (a, b) ha
    simpa using this
  · intro h e he
    by_cases h2 : e.2 = b
    · have hmem : (e.1, b) ∈ allEdges tasks := by
        rw [show ((e.1, b) : String × String) = e by rw [← h2]]
        exact he
      have := h e.1 hmem
      simp [h2, this]
    · simp [h2]

theorem remainIndeg_pos (tasks : List Task) (P : List String) (b : String)
    (h : ¬ remainIndeg tasks P b = 0) :
    ∃ a, (a, b) ∈ allEdges tasks ∧ ¬ a ∈ P := by
  have hpos : 0 < remainIndeg tasks P b := Nat.pos_of_ne_zero h
  unfold remainIndeg at hpos
  obtain ⟨e, he, hp⟩ := List.countP_pos.mp hpos
  simp only [Bool.and_eq_true, decide_eq_true_eq, Bool.not_eq_true', decide_eq_false_iff_not] at hp
  refine ⟨e.1, ?_, hp.2⟩
  rw [show ((e.1, b) : String × String) = e by rw [← hp.1]]
  exact he

theorem mem_allEdges (tasks : List Task) (a b : String) :
    (a, b) ∈ allEdges tasks ↔ ∃ t ∈ tasks, t.id = b ∧ a ∈ t.depends_on := by
  induction tasks with
  | nil => simp [allEdges]
  | cons t ts ih =>
    simp only [allEdges, List.mem_append, List.mem_map, ih, List.mem_cons]
    constructor
    · rintro (⟨d, hd, he⟩ | ⟨u, hu, hid, ha⟩)
      · have h1 : d = a := congrArg Prod.fst he
        have h2 : t.id = b := congrArg Prod.snd he
        exact ⟨t, Or.inl rfl, h2, h1 ▸ hd⟩
      · exact ⟨u, Or.inr hu, hid, ha⟩
    · rintro ⟨u, (rfl | hu), hid, ha⟩
      · exact Or.inl ⟨a, ha, by rw [hid]⟩
      · exact Or.inr ⟨u, hu, hid, ha⟩

theorem allEdges_target_mem (tasks : List Task) (a b : String)
    (h : (a, b) ∈ allEdges tasks) : b ∈ taskIds tasks := by
  obtain ⟨t, ht, hid, _⟩ := (mem_allEdges tasks a b).mp h
  exact List.mem_map.mpr ⟨t, ht, hid⟩

theorem lookupNat_some_mem (m : List (String × Nat)) (b : String) (v : Nat)
    (h : lookupNat m b = some v) : (b, v) ∈ m := by
  induction m with
  | nil => simp [lookupNat] at h
  | cons e rest ih =>
    obtain ⟨k, x⟩ := e
    by_cases hk : k = b
    · subst hk
      rw [lookupNat, if_pos rfl] at h
      obtain rfl : x = v := Option.some.inj h
      exact List.mem_cons_self _ _
    · rw [lookupNat, if_neg hk] at h
      exact List.mem_cons_of_mem _ (ih h)

theorem lookupNat_some_mem_keys (m : List (String × Nat)) (b : String) (v : Nat)
    (h : lookupNat m b = some v) : b ∈ m.map Prod.fst :=
  List.mem_map.mpr ⟨(b, v), lookupNat_some_mem m b v h, rfl⟩

theorem lookupNat_of_mem_nodup (m : List (String × Nat))
    (hN : (m.map Prod.fst).Nodup) (b : String) (v : Nat)
    (h : (b, v) ∈ m) : lookupNat m b = some v := by
  induction m with
  | nil => simp at h
  | cons e rest ih =>
    obtain ⟨k, x⟩ := e
    rcases List.mem_cons.mp h with h | h
    · obtain ⟨rfl, rfl⟩ : k = b ∧ x = v := by
        have h1 := congrArg Prod.fst h.symm
        have h2 := congrArg Prod.snd h.symm
        exact ⟨h1, h2⟩
      simp [lookupNat]
    · have hk : ¬ k = b := by
        intro hk
        subst hk
        have : k ∈ rest.map Prod.fst := List.mem_map.mpr ⟨(k, v), h, rfl⟩
        exact (List.nodup_cons.mp (by simpa using hN)).1 this
      rw [lookupNat, if_neg hk]
      exact ih (by simpa using (List.nodup_cons.mp (by simpa using hN)).2) h

/-- Loop invariant of the Kahn pass: `P` lists the already-dequeued ids in
order, `queue` is the pending queue, `indeg` the current indegree map. -/
structure KahnInv (tasks : List Task) (P queue : List String)
    (indeg : List (String × Nat)) : Prop where
  keys : indeg.map Prod.fst = taskIds tasks
  vals : ∀ b ∈ taskIds tasks, lookupNat indeg b = some (remainIndeg tasks P b)
  queueNodup : queue.Nodup
  queueMem : ∀ x ∈ queue, x ∈ taskIds tasks ∧ ¬ x ∈ P
  zeroIff : ∀ b ∈ taskIds tasks, ¬ b ∈ P → (remainIndeg tasks P b = 0 ↔ b ∈ queue)
  procZero : ∀ b ∈ P, remainIndeg tasks P b = 0

/-- What the Kahn loop guarantees about its dequeue order `L`, relative to
the ids already processed in `P`. -/
structure KahnOut (tasks : List Task) (P L : List String) : Prop where
  nodup : L.Nodup
  mem : ∀ x ∈ L, x ∈ taskIds tasks ∧ ¬ x ∈ P
  topo : ∀ l₁ b l₂, L = l₁ ++ b :: l₂ → ∀ a, (a, b) ∈ allEdges tasks → a ∈ P ∨ a ∈ l₁
  unvisited : ∀ b ∈ taskIds tasks, ¬ b ∈ P → ¬ b ∈ L →
    ∃ a, (a, b) ∈ allEdges tasks ∧ ¬ a ∈ P ∧ ¬ a ∈ L

theorem kahn_out_nil (tasks : List Task) (P : List String) (indeg : List (String × Nat))
    (hInv : KahnInv tasks P [] indeg) : KahnOut tasks P [] := by
  refine ⟨List.nodup_nil, ?_, ?_, ?_⟩
  · intro x hx
    exact absurd hx (List.not_mem_nil x)
  · intro l₁ b l₂ hsplit a ha
    exfalso
    cases l₁ <;> simp at hsplit
  · intro b hb hbP hbL
    have hzero := hInv.zeroIff b hb hbP
    simp only [List.not_mem_nil, iff_false] at hzero
    obtain ⟨a, ha, haP⟩ := remainIndeg_pos tasks P b hzero
    exact ⟨a, ha, haP, List.not_mem_nil a⟩

theorem kahn_loop_out (tasks : List Task) :
    ∀ (fuel : Nat) (queue : List String) (indeg : List (String × Nat)) (P : List String),
      queue.length + sumIndegree indeg ≤ fuel →
      KahnInv tasks P queue indeg →
      KahnOut tasks P (kahnLoopListF (buildOutgoing tasks) fuel queue indeg) := by
  intro fuel
  induction fuel with
  | zero =>
    intro queue indeg P hm hInv
    have hq : queue = [] := by
      cases queue with
      | nil => rfl
      | cons q rest => simp at hm
    subst hq
    have h0 : kahnLoopListF (buildOutgoing tasks) 0 [] indeg = [] := rfl
    rw [h0]
    exact kahn_out_nil tasks P indeg hInv
  | succ fuel ih =>
    intro queue indeg P hm hInv
    cases queue with
    | nil =>
      have h0 : kahnLoopListF (buildOutgoing tasks) (fuel + 1) [] indeg = [] := rfl
      rw [h0]
      exact kahn_out_nil tasks P indeg hInv
    | cons q rest =>
      obtain ⟨hqIds, hqP⟩ := hInv.queueMem q (List.mem_cons_self q rest)
      have hqZero : remainIndeg tasks P q = 0 :=
        (hInv.zeroIff q hqIds hqP).mpr (List.mem_cons_self q rest)
      have hdeps : lookupOutgoing (buildOutgoing tasks) q = edgesFrom tasks q :=
        lookupOutgoing_buildOutgoing tasks q
      have hsnoc : ∀ b, remainIndeg tasks P b =
          remainIndeg tasks (P ++ [q]) b + edgeCount tasks q b :=
        fun b => remainIndeg_snoc tasks P q hqP b
      rcases hpd : processDependents (edgesFrom tasks q) indeg with ⟨indeg2, zeros⟩
      have hlookup : ∀ b, lookupNat indeg2 b =
          match lookupNat indeg b with
          | none => none
          | some v => some (v - (edgesFrom tasks q).count b) := by
        intro b
        have h := processDependents_lookup (edgesFrom tasks q) indeg b
        rw [hpd] at h
        exact h
      have hkeys2 : indeg2.map Prod.fst = taskIds tasks := by
        have h := processDependents_keys (edgesFrom tasks q) indeg
        rw [hpd] at h
        exact h.trans hInv.keys
      have hzmem : ∀ x, x ∈ zeros ↔
          ∃ v, lookupNat indeg x = some v ∧ 1 ≤ v ∧ v ≤ (edgesFrom tasks q).count x := by
        intro x
        have h := processDependents_zeros_mem (edgesFrom tasks q) indeg x
        rw [hpd] at h
        exact h
      have hznodup : zeros.Nodup := by
        have h := processDependents_zeros_nodup (edgesFrom tasks q) indeg
        rw [hpd] at h
        exact h
      have hvals2 : ∀ b ∈ taskIds tasks,
          lookupNat indeg2 b = some (remainIndeg tasks (P ++ [q]) b) := by
        intro b hb
        have heq := hsnoc b
        rw [hlookup b, hInv.vals b hb]
        show some (remainIndeg tasks P b - (edgesFrom tasks q).count b) = _
        rw [edgesFrom_count]
        congr 1
        omega
      have hzeros_char : ∀ x, x ∈ zeros ↔
          (x ∈ taskIds tasks ∧ 1 ≤ remainIndeg tasks P x ∧
            remainIndeg tasks (P ++ [q]) x = 0) := by
        intro x
        rw [hzmem x]
        constructor
        · rintro ⟨v, hv, h1, h2⟩
          have hxIds : x ∈ taskIds tasks := by
            rw [← hInv.keys]
            exact lookupNat_some_mem_keys indeg x v hv
          have hvx := hInv.vals x hxIds
          rw [hvx] at hv
          obtain rfl : remainIndeg tasks P x = v := Option.some.inj hv
          rw [edgesFrom_count] at h2
          have := hsnoc x
          exact ⟨hxIds, h1, by omega⟩
        · rintro ⟨hxIds, h1, h2⟩
          refine ⟨remainIndeg tasks P x, hInv.vals x hxIds, h1, ?_⟩
          rw [edgesFrom_count]
          have := hsnoc x
          omega
      have hInv2 : KahnInv tasks (P ++ [q]) (rest ++ zeros) indeg2 := by
        refine ⟨hkeys2, hvals2, ?_, ?_, ?_, ?_⟩
        · rw [List.nodup_append]
          refine ⟨hInv.queueNodup.of_cons, hznodup, ?_⟩
          intro x hxRest hxZeros
          obtain ⟨hxIds, h1, h2⟩ := (hzeros_char x).mp hxZeros
          have hxq : x ∈ q :: rest := List.mem_cons_of_mem q hxRest
          obtain ⟨_, hxP⟩ := hInv.queueMem x hxq
          have := (hInv.zeroIff x hxIds hxP).mpr hxq
          omega
        · intro x hx
          rcases List.mem_append.mp hx with hx | hx
          · have hxq : x ∈ q :: rest := List.mem_cons_of_mem q hx
            obtain ⟨hxIds, hxP⟩ := hInv.queueMem x hxq
            have hxne : ¬ x = q := by
              intro h
              subst h
              exact (List.nodup_cons.mp hInv.queueNodup).1 hx
            refine ⟨hxIds, ?_⟩
            simp [List.mem_append, hxP, hxne]
          · obtain ⟨hxIds, h1, h2⟩ := (hzeros_char x).mp hx
            have hxP : ¬ x ∈ P := by
              intro hxP
              have := hInv.procZero x hxP
              omega
            have hxne : ¬ x = q := by
              intro h
              subst h
              omega
            refine ⟨hxIds, ?_⟩
            simp [List.mem_append, hxP, hxne]
        · intro b hb hbP'
          have hbP : ¬ b ∈ P := fun h => hbP' (List.mem_append_left _ h)
          have hbq : ¬ b = q := fun h => hbP' (by simp [h])
          constructor
          · intro hz
            by_cases hPz : remainIndeg tasks P b = 0
            · have hbQueue := (hInv.zeroIff b hb hbP).mp hPz
              rcases List.mem_cons.mp hbQueue with h | h
              · exact absurd h hbq
              · exact List.mem_append_left _ h
            · have hmem : b ∈ zeros := (hzeros_char b).mpr ⟨hb, by omega, hz⟩
              exact List.mem_append_right _ hmem
          · intro hmem
            rcases List.mem_append.mp hmem with h | h
            · have hbQueue : b ∈ q :: rest := List.mem_cons_of_mem q h
              have hPz := (hInv.zeroIff b hb hbP).mpr hbQueue
              have := hsnoc b
              omega
            · exact ((hzeros_char b).mp h).2.2
        · intro b hbP'
          rcases List.mem_append.mp hbP' with h | h
          · have h1 := hInv.procZero b h
            have h2 := hsnoc b
            omega
          · have hbq : b = q := by simpa using h
            subst hbq
            have := hsnoc b
            omega
      have hmeasure : (rest ++ zeros).length + sumIndegree indeg2 ≤ fuel := by
        have hpm := processDependents_measure (edgesFrom tasks q) indeg
        rw [hpd] at hpm
        dsimp only at hpm
        simp only [List.length_append]
        simp only [List.length_cons] at hm
        omega
      have hOut := ih (rest ++ zeros) indeg2 (P ++ [q]) hmeasure hInv2
      have hstep : kahnLoopListF (buildOutgoing tasks) (fuel + 1) (q :: rest) indeg =
          q :: kahnLoopListF (buildOutgoing tasks) fuel (rest ++ zeros) indeg2 := by
        show q :: kahnLoopListF (buildOutgoing tasks) fuel
            (rest ++ (processDependents (lookupOutgoing (buildOutgoing tasks) q) indeg).2)
            (processDependents (lookupOutgoing (buildOutgoing tasks) q) indeg).1 = _
        rw [hdeps, hpd]
      rw [hstep]
      obtain ⟨hN', hM', hT', hU'⟩ := hOut
      refine ⟨?_, ?_, ?_, ?_⟩
      · rw [List.nodup_cons]
        refine ⟨?_, hN'⟩
        intro hqL'
        exact (hM' q hqL').2 (by simp)
      · intro x hx
        rcases List.mem_cons.mp hx with rfl | hx
        · exact ⟨hqIds, hqP⟩
        · obtain ⟨hxIds, hxP'⟩ := hM' x hx
          exact ⟨hxIds, fun h => hxP' (List.mem_append_left _ h)⟩
      · intro l₁ b l₂ hsplit a ha
        cases l₁ with
        | nil =>
          simp only [List.nil_append, List.cons.injEq] at hsplit
          obtain ⟨rfl, rfl⟩ := hsplit
          exact Or.inl ((remainIndeg_eq_zero_iff tasks P q).mp hqZero a ha)
        | cons x l₁' =>
          simp only [List.cons_append, List.cons.injEq] at hsplit
          obtain ⟨rfl, hsplit'⟩ := hsplit
          rcases hT' l₁' b l₂ hsplit' a ha with h | h
          · rcases List.mem_append.mp h with h | h
            · exact Or.inl h
            · right
              simp at h
              simp [h]
          · exact Or.inr (List.mem_cons_of_mem _ h)
      · intro b hb hbP hbL
        have hbq : ¬ b = q := fun h => hbL (h ▸ List.mem_cons_self q _)
        have hbL' : ¬ b ∈ kahnLoopListF (buildOutgoing tasks) fuel (rest ++ zeros) indeg2 :=
          fun h => hbL (List.mem_cons_of_mem _ h)
        have hbP' : ¬ b ∈ P ++ [q] := by simp [hbP, hbq]
        obtain ⟨a, ha, haP', haL'⟩ := hU' b hb hbP' hbL'
        have haP : ¬ a ∈ P := fun h => haP' (List.mem_append_left _ h)
        have haq : ¬ a = q := fun h => haP' (by simp [h])
        refine ⟨a, ha, haP, ?_⟩
        intro haL
        rcases List.mem_cons.mp haL with h | h
        · exact haq h
        · exact haL' h

theorem remainIndeg_cons_eq (t : Task) (ts : List Task) (P : List String) (b : String)
    (h : t.id = b) :
    remainIndeg (t :: ts) P b =
      t.depends_on.countP (fun d => !(decide (d ∈ P))) + remainIndeg ts P b := by
  unfold remainIndeg
  rw [show allEdges (t :: ts) = t.depends_on.map (fun d => (d, t.id)) ++ allEdges ts from rfl]
  rw [List.countP_append, List.countP_map]
  congr 1
  refine List.countP_congr ?_
  intro d _
  simp [Function.comp, h]

theorem remainIndeg_cons_ne (t : Task) (ts : List Task) (P : List String) (b : String)
    (h : ¬ t.id = b) :
    remainIndeg (t :: ts) P b = remainIndeg ts P b := by
  unfold remainIndeg
  rw [show allEdges (t :: ts) = t.depends_on.map (fun d => (d, t.id)) ++ allEdges ts from rfl]
  rw [List.countP_append, List.countP_map]
  rw [show (t.depends_on.countP
      ((fun e => decide (e.2 = b) && !(decide (e.1 ∈ P))) ∘ fun d => (d, t.id))) = 0 from ?_]
  · omega
  · rw [List.countP_eq_zero]
    intro d _
    simp [Function.comp, h]

theorem remainIndeg_zero_of_not_target (tasks : List Task) (P : List String) (b : String)
    (h : ¬ b ∈ taskIds tasks) : remainIndeg tasks P b = 0 := by
  unfold remainIndeg
  rw [List.countP_eq_zero]
  intro e he
  have : ¬ e.2 = b := by
    intro h2
    apply h
    have : ((e.1, e.2) : String × String) = e := rfl
    exact allEdges_target_mem tasks e.1 b (by rw [← h2]; simpa [this] using he)
  simp [this]

theorem buildIndegree_vals (tasks : List Task) (hN : (taskIds tasks).Nodup) :
    ∀ b ∈ taskIds tasks,
      lookupNat (buildIndegree tasks) b = some (remainIndeg tasks [] b) := by
  induction tasks with
  | nil => simp [taskIds]
  | cons t ts ih =>
    intro b hb
    have hcons := List.nodup_cons.mp (show (t.id :: taskIds ts).Nodup from hN)
    by_cases hbt : t.id = b
    · subst hbt
      rw [show lookupNat (buildIndegree (t :: ts)) t.id = some t.depends_on.length from by
        simp [buildIndegree, lookupNat]]
      congr 1
      rw [remainIndeg_cons_eq t ts [] t.id rfl,
        remainIndeg_zero_of_not_target ts [] t.id hcons.1]
      simp
    · rw [show lookupNat (buildIndegree (t :: ts)) b = lookupNat (buildIndegree ts) b from by
        simp [buildIndegree, lookupNat, hbt]]
      have hb' : b ∈ taskIds ts := by
        rcases List.mem_cons.mp (show b ∈ t.id :: taskIds ts from hb) with h | h
        · exact absurd h.symm hbt
        · exact h
      rw [ih hcons.2 b hb', remainIndeg_cons_ne t ts [] b hbt]

theorem initQueue_sublist (indeg : List (String × Nat)) :
    List.Sublist (initQueue indeg) (indeg.map Prod.fst) := by
  induction indeg with
  | nil => simp [initQueue]
  | cons e rest ih =>
    by_cases h : e.2 = 0
    · rw [show initQueue (e :: rest) = e.1 :: initQueue rest from by simp [initQueue, h]]
      exact ih.cons₂ e.1
    · rw [show initQueue (e :: rest) = initQueue rest from by simp [initQueue, h]]
      exact ih.cons e.1

theorem mem_initQueue (indeg : List (String × Nat)) (b : String) :
    b ∈ initQueue indeg ↔ ∃ kv ∈ indeg, kv.2 = 0 ∧ kv.1 = b := by
  simp only [initQueue, List.mem_filterMap]
  constructor
  · rintro ⟨kv, hkv, hf⟩
    by_cases h : kv.2 = 0
    · rw [if_pos h] at hf
      exact ⟨kv, hkv, h, Option.some.inj hf⟩
    · rw [if_neg h] at hf
      cases hf
  · rintro ⟨kv, hkv, h0, rfl⟩
    exact ⟨kv, hkv, by rw [if_pos h0]⟩

theorem kahn_init (tasks : List Task) (hN : (taskIds tasks).Nodup) :
    KahnInv tasks [] (initQueue (buildIndegree tasks)) (buildIndegree tasks) := by
  have hkeys : (buildIndegree tasks).map Prod.fst = taskIds tasks := by
    simp [buildIndegree, taskIds, List.map_map, Function.comp]
  have hvals := buildIndegree_vals tasks hN
  have hkN : ((buildIndegree tasks).map Prod.fst).Nodup := by
    rw [hkeys]
    exact hN
  refine ⟨hkeys, hvals, ?_, ?_, ?_, ?_⟩
  · exact List.Nodup.sublist (initQueue_sublist _) hkN
  · intro x hx
    obtain ⟨kv, hkv, h0, rfl⟩ := (mem_initQueue _ x).mp hx
    refine ⟨?_, List.not_mem_nil _⟩
    rw [← hkeys]
    exact List.mem_map.mpr ⟨kv, hkv, rfl⟩
  · intro b hb _
    constructor
    · intro hz
      have hv := hvals b hb
      rw [hz] at hv
      exact (mem_initQueue _ b).mpr ⟨(b, 0), lookupNat_some_mem _ _ _ hv, rfl, rfl⟩
    · intro hq
      obtain ⟨kv, hkv, h0, hfst⟩ := (mem_initQueue _ b).mp hq
      have hlk : lookupNat (buildIndegree tasks) b = some kv.2 := by
        apply lookupNat_of_mem_nodup _ hkN
        rw [← hfst]
        simpa using hkv
      have hv := hvals b hb
      rw [hlk] at hv
      rw [← Option.some.inj hv, h0]
  · intro b hb
    simp at hb

theorem kahnRun_out (tasks : List Task) (hN : (taskIds tasks).Nodup) :
    KahnOut tasks [] (kahnRun tasks) :=
  kahn_loop_out tasks
    ((initQueue (buildIndegree tasks)).length + sumIndegree (buildIndegree tasks))
    (initQueue (buildIndegree tasks)) (buildIndegree tasks) [] (Nat.le_refl _)
    (kahn_init tasks hN)

/-- Position of the first occurrence of an id in a list (rank function for
the topological order). -/
def idxIn : List String → String → Nat
  | [], _ => 0
  | x :: rest, a => if x = a then 0 else idxIn rest a + 1

theorem idxIn_lt_of_split (b : String) (l₂ : List String) (a : String) :
    ∀ l₁ : List String, (l₁ ++ b :: l₂).Nodup → a ∈ l₁ →
      idxIn (l₁ ++ b :: l₂) a < idxIn (l₁ ++ b :: l₂) b := by
  intro l₁
  induction l₁ with
  | nil => intro _ ha; simp at ha
  | cons x l₁' ih =>
    intro hN ha
    simp only [List.cons_append]
    have hNtail : (l₁' ++ b :: l₂).Nodup := (List.nodup_cons.mp hN).2
    have hxnot : ¬ x ∈ l₁' ++ b :: l₂ := (List.nodup_cons.mp hN).1
    have hxb : ¬ x = b := by
      intro h
      subst h
      exact hxnot (List.mem_append_right _ (List.mem_cons_self x l₂))
    rcases List.mem_cons.mp ha with rfl | ha'
    · rw [show idxIn (a :: (l₁' ++ b :: l₂)) a = 0 from by simp [idxIn]]
      rw [show idxIn (a :: (l₁' ++ b :: l₂)) b = idxIn (l₁' ++ b :: l₂) b + 1 from by
        simp [idxIn, hxb]]
      omega
    · have hxa : ¬ x = a := by
        intro h
        exact hxnot (h ▸ List.mem_append_left _ ha')
      rw [show idxIn (x :: (l₁' ++ b :: l₂)) a = idxIn (l₁' ++ b :: l₂) a + 1 from by
        simp [idxIn, hxa]]
      rw [show idxIn (x :: (l₁' ++ b :: l₂)) b = idxIn (l₁' ++ b :: l₂) b + 1 from by
        simp [idxIn, hxb]]
      exact Nat.succ_lt_succ (ih hNtail ha')

theorem chain_rank_lt (R : String → String → Prop) (rank : String → Nat)
    (hR : ∀ a b, R a b → rank a < rank b) :
    ∀ (l : List String) (x y : String), List.Chain R x l → l.getLast? = some y →
      rank x < rank y := by
  intro l
  induction l with
  | nil => intro x y _ hl; cases hl
  | cons b l' ih =>
    intro x y hc hl
    obtain ⟨hxb, hc'⟩ := List.chain_cons.mp hc
    cases l' with
    | nil =>
      obtain rfl : b = y := by simpa using hl
      exact hR x b hxb
    | cons c l'' =>
      have hl' : (c :: l'').getLast? = some y := by
        simpa [List.getLast?_cons_cons] using hl
      exact Nat.lt_trans (hR x b hxb) (ih b y hc' hl')

theorem kahn_all_imp_acyclic (tl : TaskList)
    (hN : (taskIds tl.tasks).Nodup) (hK : DepKnown tl)
    (hlen : (kahnRun tl.tasks).length = tl.tasks.length) : ¬ HasCycle tl := by
  have hOut := kahnRun_out tl.tasks hN
  have hLsub : ∀ x ∈ kahnRun tl.tasks, x ∈ taskIds tl.tasks := fun x hx => (hOut.mem x hx).1
  have hidslen : (taskIds tl.tasks).length = tl.tasks.length := by simp [taskIds]
  have hperm : (kahnRun tl.tasks).Perm (taskIds tl.tasks) := by
    apply List.Subperm.perm_of_length_le ((hOut.nodup).subperm hLsub)
    omega
  have hallmem : ∀ b ∈ taskIds tl.tasks, b ∈ kahnRun tl.tasks := fun b hb =>
    hperm.mem_iff.mpr hb
  have hrank : ∀ a b, EdgeTo tl a b →
      idxIn (kahnRun tl.tasks) a < idxIn (kahnRun tl.tasks) b := by
    intro a b hE
    have hedge : (a, b) ∈ allEdges tl.tasks := (mem_allEdges tl.tasks a b).mpr hE
    have hbIds : b ∈ taskIds tl.tasks := allEdges_target_mem _ _ _ hedge
    obtain ⟨l₁, l₂, hsplit⟩ := List.append_of_mem (hallmem b hbIds)
    rcases hOut.topo l₁ b l₂ hsplit a hedge with h | h
    · simp at h
    · rw [hsplit]
      exact idxIn_lt_of_split b l₂ a l₁ (hsplit ▸ hOut.nodup) h
  rintro ⟨l, hch, hlen2, hheads⟩
  cases l with
  | nil => simp at hlen2
  | cons x rest =>
    cases rest with
    | nil => simp at hlen2
    | cons c rest' =>
      have hc : List.Chain (EdgeTo tl) x (c :: rest') := hch
      have hlast : (c :: rest').getLast? = some x := by
        have h1 : (x :: c :: rest').head? = some x := rfl
        rw [h1] at hheads
        rw [List.getLast?_cons_cons] at hheads
        exact hheads.symm
      have := chain_rank_lt (EdgeTo tl) (idxIn (kahnRun tl.tasks)) hrank (c :: rest') x x
        hc hlast
      omega

theorem not_nodup_split (l : List String) (h : ¬ l.Nodup) :
    ∃ l₁ a l₂ l₃, l = l₁ ++ a :: (l₂ ++ a :: l₃) := by
  induction l with
  | nil => exact absurd List.nodup_nil h
  | cons x t ih =>
    by_cases hx : x ∈ t
    · obtain ⟨s, r, rfl⟩ := List.append_of_mem hx
      exact ⟨[], x, s, r, rfl⟩
    · have ht : ¬ t.Nodup := by
        intro hT
        exact h (List.nodup_cons.mpr ⟨hx, hT⟩)
      obtain ⟨l₁, a, l₂, l₃, rfl⟩ := ih ht
      exact ⟨x :: l₁, a, l₂, l₃, rfl⟩

theorem walk_exists (S : List String) (R : String → String → Prop)
    (hsucc : ∀ x ∈ S, ∃ y ∈ S, R y x) (x₀ : String) (hx₀ : x₀ ∈ S) :
    ∀ n, ∃ w : List String, w.length = n + 1 ∧ (∀ x ∈ w, x ∈ S) ∧ w.Chain' R := by
  intro n
  induction n with
  | zero => exact ⟨[x₀], rfl, by simpa using hx₀, List.chain'_singleton x₀⟩
  | succ n ih =>
    obtain ⟨w, hlen, hmem, hch⟩ := ih
    cases w with
    | nil => simp at hlen
    | cons h t =>
      obtain ⟨y, hyS, hyR⟩ := hsucc h (hmem h (List.mem_cons_self h t))
      refine ⟨y :: h :: t, by simpa using hlen, ?_, ?_⟩
      · intro x hx
        rcases List.mem_cons.mp hx with rfl | hx
        · exact hyS
        · exact hmem x hx
      · exact List.chain'_cons.mpr ⟨hyR, hch⟩

theorem cycle_of_succ (tl : TaskList) (S : List String) (hSN : S.Nodup) (hne : ¬ S = [])
    (hsucc : ∀ x ∈ S, ∃ y ∈ S, EdgeTo tl y x) : HasCycle tl := by
  obtain ⟨x₀, hx₀⟩ : ∃ x, x ∈ S := by
    cases S with
    | nil => exact absurd rfl hne
    | cons a t => exact ⟨a, List.mem_cons_self a t⟩
  obtain ⟨w, hlen, hmem, hch⟩ := walk_exists S (EdgeTo tl) hsucc x₀ hx₀ S.length
  have hnd : ¬ w.Nodup := by
    intro hw
    have := List.Subperm.length_le (hw.subperm hmem)
    omega
  obtain ⟨l₁, a, l₂, l₃, hw⟩ := not_nodup_split w hnd
  have hinfix : List.IsInfix (a :: (l₂ ++ [a])) w := by
    refine ⟨l₁, l₃, ?_⟩
    rw [hw]
    simp
  have hchc : (a :: (l₂ ++ [a])).Chain' (EdgeTo tl) := hch.infix hinfix
  refine ⟨a :: (l₂ ++ [a]), hchc, by simp, ?_⟩
  show some a = (a :: (l₂ ++ [a])).getLast?
  rw [show (a :: (l₂ ++ [a])) = (a :: l₂) ++ [a] from by simp]
  rw [List.getLast?_concat]

theorem acyclic_imp_kahn_all (tl : TaskList)
    (hN : (taskIds tl.tasks).Nodup) (hK : DepKnown tl) (hA : ¬ HasCycle tl) :
    (kahnRun tl.tasks).length = tl.tasks.length := by
  have hOut := kahnRun_out tl.tasks hN
  have hallmem : ∀ b ∈ taskIds tl.tasks, b ∈ kahnRun tl.tasks := by
    intro b₀ hb₀I
    by_contra hb₀L
    apply hA
    apply cycle_of_succ tl
      ((taskIds tl.tasks).filter (fun b => !(decide (b ∈ kahnRun tl.tasks))))
      (hN.filter _)
    · intro hSnil
      have hb₀S : b₀ ∈ (taskIds tl.tasks).filter
          (fun b => !(decide (b ∈ kahnRun tl.tasks))) := by
        rw [List.mem_filter]
        simp [hb₀I, hb₀L]
      rw [hSnil] at hb₀S
      simp at hb₀S
    · intro x hx
      rw [List.mem_filter] at hx
      obtain ⟨hxI, hxL'⟩ := hx
      have hxL : ¬ x ∈ kahnRun tl.tasks := by simpa using hxL'
      obtain ⟨a, ha, _, haL⟩ := hOut.unvisited x hxI (List.not_mem_nil x) hxL
      have haI : a ∈ taskIds tl.tasks := by
        obtain ⟨t, ht, hid, hdep⟩ := (mem_allEdges tl.tasks a x).mp ha
        obtain ⟨u, hu, huid⟩ := hK t ht a hdep
        exact List.mem_map.mpr ⟨u, hu, huid⟩
      refine ⟨a, ?_, (mem_allEdges tl.tasks a x).mp ha⟩
      rw [List.mem_filter]
      simp [haI, haL]
  have h1 := List.Subperm.length_le ((hOut.nodup).subperm
    (fun x hx => (hOut.mem x hx).1))
  have h2 := List.Subperm.length_le (hN.subperm hallmem)
  have h3 : (taskIds tl.tasks).length = tl.tasks.length := by simp [taskIds]
  omega

theorem findDuplicateId_none_iff (l : List String) :
    ∀ seen, findDuplicateId seen l = none ↔ (l.Nodup ∧ ∀ x ∈ l, ¬ x ∈ seen) := by
  induction l with
  | nil => intro seen; simp [findDuplicateId]
  | cons i rest ih =>
    intro seen
    by_cases hi : i ∈ seen
    · rw [show findDuplicateId seen (i :: rest) = some i from by simp [findDuplicateId, hi]]
      constructor
      · intro h
        cases h
      · rintro ⟨_, hall⟩
        exact absurd hi (hall i (List.mem_cons_self i rest))
    · rw [show findDuplicateId seen (i :: rest) = findDuplicateId (i :: seen) rest from by
        simp [findDuplicateId, hi]]
      rw [ih (i :: seen)]
      constructor
      · rintro ⟨hnd, hall⟩
        have hiRest : ¬ i ∈ rest := by
          intro h
          exact hall i h (List.mem_cons_self i seen)
        refine ⟨List.nodup_cons.mpr ⟨hiRest, hnd⟩, ?_⟩
        intro x hx
        rcases List.mem_cons.mp hx with rfl | hx
        · exact hi
        · exact fun hxs => hall x hx (List.mem_cons_of_mem _ hxs)
      · rintro ⟨hnd, hall⟩
        obtain ⟨hiR, hndR⟩ := List.nodup_cons.mp hnd
        refine ⟨hndR, ?_⟩
        intro x hx hxs
        rcases List.mem_cons.mp hxs with rfl | hxs
        · exact hiR hx
        · exact hall x (List.mem_cons_of_mem _ hx) hxs

theorem findDuplicateId_nil_iff (l : List String) :
    findDuplicateId [] l = none ↔ l.Nodup := by
  rw [findDuplicateId_none_iff l []]
  simp

theorem firstUnknownIn_none_iff (ids : List String) (tid : String) (ds : List String) :
    firstUnknownIn ids tid ds = none ↔ ∀ d ∈ ds, d ∈ ids := by
  induction ds with
  | nil => simp [firstUnknownIn]
  | cons d ds' ih =>
    by_cases h : d ∈ ids
    · rw [show firstUnknownIn ids tid (d :: ds') = firstUnknownIn ids tid ds' from by
        simp [firstUnknownIn, h]]
      rw [ih]
      constructor
      · intro hall x hx
        rcases List.mem_cons.mp hx with rfl | hx
        · exact h
        · exact hall x hx
      · intro hall x hx
        exact hall x (List.mem_cons_of_mem _ hx)
    · rw [show firstUnknownIn ids tid (d :: ds') = some (tid, d) from by
        simp [firstUnknownIn, h]]
      constructor
      · intro hc
        cases hc
      · intro hall
        exact absurd (hall d (List.mem_cons_self d ds')) h

theorem findUnknownDep_none_iff (ids : List String) (tasks : List Task) :
    findUnknownDep ids tasks = none ↔ ∀ t ∈ tasks, ∀ d ∈ t.depends_on, d ∈ ids := by
  induction tasks with
  | nil => simp [findUnknownDep]
  | cons t ts ih =>
    rcases h : firstUnknownIn ids t.id t.depends_on with _ | p
    · rw [show findUnknownDep ids (t :: ts) = findUnknownDep ids ts from by
        simp [findUnknownDep, h]]
      rw [ih]
      have hdeps := (firstUnknownIn_none_iff ids t.id t.depends_on).mp h
      constructor
      · intro hall u hu
        rcases List.mem_cons.mp hu with rfl | hu
        · exact hdeps
        · exact hall u hu
      · intro hall u hu
        exact hall u (List.mem_cons_of_mem _ hu)
    · rw [show findUnknownDep ids (t :: ts) = some p from by simp [findUnknownDep, h]]
      constructor
      · intro hc
        cases hc
      · intro hall
        have := (firstUnknownIn_none_iff ids t.id t.depends_on).mpr
          (hall t (List.mem_cons_self t ts))
        rw [h] at this
        cases this

theorem depKnown_iff (tl : TaskList) :
    DepKnown tl ↔ ∀ t ∈ tl.tasks, ∀ d ∈ t.depends_on, d ∈ taskIds tl.tasks := by
  constructor
  · intro h t ht d hd
    obtain ⟨u, hu, hid⟩ := h t ht d hd
    exact List.mem_map.mpr ⟨u, hu, hid⟩
  · intro h t ht d hd
    obtain ⟨u, hu, hid⟩ := List.mem_map.mp (h t ht d hd)
    exact ⟨u, hu, hid⟩

theorem except_error_iff (r : Except String Unit) :
    (∃ e, r = Except.error e) ↔ ¬ r = Except.ok () := by
  cases r with
  | error e => simp
  | ok u => cases u; simp

/- ── C3 ────────────────────────────────────────────────────────────────────── -/

/-- C3: `validate_task_list` succeeds exactly on lists with unique ids, only
known dependency ids, and an acyclic dependency relation — equivalently, it
fails exactly when the list contains a duplicate id, a dependency naming a
nonexistent id, or a dependency cycle. -/
theorem validate_task_list_spec (tl : TaskList) :
    (validateTaskList tl = Except.ok () ↔
      ((taskIds tl.tasks).Nodup ∧ DepKnown tl ∧ ¬ HasCycle tl)) ∧
    ((∃ e, validateTaskList tl = Except.error e) ↔
      (¬ (taskIds tl.tasks).Nodup ∨ ¬ DepKnown tl ∨ HasCycle tl)) := by
  have hmain : validateTaskList tl = Except.ok () ↔
      ((taskIds tl.tasks).Nodup ∧ DepKnown tl ∧ ¬ HasCycle tl) := by
    rcases hdup : findDuplicateId [] (taskIds tl.tasks) with _ | i
    · have hnd : (taskIds tl.tasks).Nodup := (findDuplicateId_nil_iff _).mp hdup
      rcases hunk : findUnknownDep (taskIds tl.tasks) tl.tasks with _ | p
      · have hkn : DepKnown tl :=
          (depKnown_iff tl).mpr ((findUnknownDep_none_iff _ _).mp hunk)
        by_cases hlen : (kahnRun tl.tasks).length = tl.tasks.length
        · rw [show validateTaskList tl = Except.ok () from by
            simp [validateTaskList, hdup, hunk, hlen]]
          constructor
          · intro _
            exact ⟨hnd, hkn, kahn_all_imp_acyclic tl hnd hkn hlen⟩
          · intro _
            rfl
        · rw [show validateTaskList tl =
              Except.error "Circular task dependencies detected in tasks.json" from by
            simp [validateTaskList, hdup, hunk, hlen]]
          constructor
          · intro h
            cases h
          · rintro ⟨_, _, hA⟩
            exact absurd (acyclic_imp_kahn_all tl hnd hkn hA) hlen
      · rw [show validateTaskList tl =
            Except.error ("Task '" ++ p.1 ++ "' depends on unknown task '" ++ p.2 ++ "'")
            from by simp [validateTaskList, hdup, hunk]]
        constructor
        · intro h
          cases h
        · rintro ⟨_, hkn, _⟩
          have h := (findUnknownDep_none_iff (taskIds tl.tasks) tl.tasks).mpr
            ((depKnown_iff tl).mp hkn)
          rw [hunk] at h
          cases h
    · rw [show validateTaskList tl = Except.error ("Duplicate task id detected: " ++ i)
          from by simp [validateTaskList, hdup]]
      constructor
      · intro h
        cases h
      · rintro ⟨hnd, _, _⟩
        have h := (findDuplicateId_nil_iff (taskIds tl.tasks)).mpr hnd
        rw [hdup] at h
        cases h
  refine ⟨hmain, ?_⟩
  rw [except_error_iff, hmain]
  tauto

set_option maxRecDepth 8192 in
/-- Witness for C3: a concrete two-task list with unique ids, known
dependencies and no cycle, on which validation computes to success. -/
theorem validate_task_list_spec_witness :
    (taskIds (TaskList.mk 1 "prd.md" "c" "u"
        [Task.mk "T1" "a" "d" 1 TaskStatus.pending [] none none,
         Task.mk "T2" "b" "d" 2 TaskStatus.pending ["T1"] none none]).tasks).Nodup ∧
    DepKnown (TaskList.mk 1 "prd.md" "c" "u"
        [Task.mk "T1" "a" "d" 1 TaskStatus.pending [] none none,
         Task.mk "T2" "b" "d" 2 TaskStatus.pending ["T1"] none none]) ∧
    ¬ HasCycle (TaskList.mk 1 "prd.md" "c" "u"
        [Task.mk "T1" "a" "d" 1 TaskStatus.pending [] none none,
         Task.mk "T2" "b" "d" 2 TaskStatus.pending ["T1"] none none]) :=
  (validate_task_list_spec (TaskList.mk 1 "prd.md" "c" "u"
      [Task.mk "T1" "a" "d" 1 TaskStatus.pending [] none none,
       Task.mk "T2" "b" "d" 2 TaskStatus.pending ["T1"] none none])).1.mp rfl

end Ralph
